import Mathlib

/-!
Verification of the handle-lifetime subsystem of `src/egit.c` (the CORE of an
Emacs ↔ libgit2 bridge).

The C code keeps a process-wide hash table `object_store` of wrapper structs
`egit_object {type, refcount, ptr}`, keyed by the raw libgit2 pointer.  We
embed the table as an association list of wrapper records keyed by the `ptr`
field (uthash holds at most one entry per key in all states the code
creates, because `egit_incref` inserts only after a failed find).  Raw
pointers are modelled as natural numbers; libgit2 (the VCL) is modelled as a
record of pure functions `object_type`, `object_owner`, `reference_owner`,
since libgit2's ownership relation is fixed during the lifetime of an object.

Calls into libgit2's free functions and refcount decrements are recorded as an
event trace, so that ordering properties of the release path can be stated.
A `none` result of the release path models the crash (NULL-pointer
dereference) that `egit_decref_wrapper(NULL)` would perform in C when
`egit_decref_wrapped` is given a pointer that is not in the table: the crash
happens before any table mutation or libgit2 free.
-/

/-- Raw libgit2 pointers (`void *` values used as hash keys). -/
abbrev Ptr := Nat

/-- The `egit_type` enumeration from `egit.h`, with exactly the constants used
by `egit.c`.  `EGIT_OBJECT` is the generic `git_object` kind. -/
inductive EgitType where
  | EGIT_UNKNOWN
  | EGIT_REPOSITORY
  | EGIT_REFERENCE
  | EGIT_COMMIT
  | EGIT_TREE
  | EGIT_BLOB
  | EGIT_TAG
  | EGIT_OBJECT
deriving Repr, DecidableEq

/-- The wrapper struct `egit_object {type, refcount, ptr}` (the uthash handle
carries no program-visible state).  The refcount is an integer, matching the
C signedness-insensitive test `obj->refcount != 0` after a decrement. -/
structure EgitObject where
  type : EgitType
  refcount : Int
  ptr : Ptr
deriving Repr, DecidableEq

/-- Dynamic object kinds returned by `git_object_type`; `other` stands for any
libgit2 `git_otype` outside the four cases `egit_wrap` refines. -/
inductive GitObjType where
  | commit
  | tree
  | blob
  | tag
  | other
deriving Repr, DecidableEq

/-- The libgit2 (VCL) interface consumed by the CORE: the dynamic type of an
object pointer and the owner accessors.  These are pure functions of the
pointer, since an object's owner and type never change while it is live. -/
structure Vcl where
  objectType : Ptr → GitObjType
  objectOwner : Ptr → Ptr
  referenceOwner : Ptr → Ptr

/-- The record `giterr_last()` returns: an error class and a message. -/
structure GitError where
  klass : Int
  message : String
deriving Repr, DecidableEq

/-- The hash table `object_store`, as a list of wrapper records keyed by
their `ptr` field. -/
abbrev Store := List EgitObject

/-- Observable events of the release path: a refcount decrement applied to
the wrapper keyed by `p`, and the three libgit2 free functions. -/
inductive Event where
  | decref (p : Ptr)
  | objectFree (p : Ptr)
  | referenceFree (p : Ptr)
  | repositoryFree (p : Ptr)
deriving Repr, DecidableEq

/-- `HASH_FIND_PTR(object_store, &p, ...)`: the wrapper stored under key `p`,
if any. -/
def lookupPtr : Store → Ptr → Option EgitObject
  | [], _ => none
  | w :: rest, p => if w.ptr = p then some w else lookupPtr rest p

/-- Writing a new value into the `refcount` field of the wrapper stored under
key `p` (the C code mutates the struct in place; the struct is the table
entry). -/
def storeSet : Store → Ptr → Int → Store
  | [], _, _ => []
  | w :: rest, p, rc =>
    (if w.ptr = p then { w with refcount := rc } else w) :: storeSet rest p rc

/-- `HASH_DEL(object_store, obj)`: removal of the entry keyed by `p`.
It removes the first (under key uniqueness: the only) entry with that key. -/
def storeRemove : Store → Ptr → Store
  | [], _ => []
  | w :: rest, p => if w.ptr = p then rest else w :: storeRemove rest p

/-- Number of table entries stored under key `p`. -/
def countKey : Store → Ptr → Nat
  | [], _ => 0
  | w :: rest, p => (if w.ptr = p then 1 else 0) + countKey rest p

/-- Key uniqueness of the table: uthash holds at most one entry per pointer
because `egit_incref` adds only after a failed `HASH_FIND_PTR`. -/
def keysUnique (s : Store) : Prop :=
  s.Pairwise (fun a b => a.ptr ≠ b.ptr)

/-- Multiplicity of a pointer in a list of host handles. -/
def countH : List Ptr → Ptr → Nat
  | [], _ => 0
  | q :: rest, p => (if q = p then 1 else 0) + countH rest p

/-- Removing one occurrence of a pointer from a list of host handles
(the handle consumed by a finalizer invocation). -/
def eraseH : List Ptr → Ptr → List Ptr
  | [], _ => []
  | q :: rest, p => if q = p then rest else q :: eraseH rest p

/-! ### The CORE operations of `egit.c` -/

/-- An Emacs Lisp value as seen by `egit_get_type`: either a user pointer
whose payload is one of the CORE's wrappers (the only user pointers this
module creates or receives back from the bindings), or any other Lisp value
(`em_user_ptrp` false). -/
inductive EmacsValue where
  | userPtr (payload : EgitObject)
  | notUserPtr (v : Nat)
deriving Repr, DecidableEq

/-- `em_user_ptrp`: whether the value is an Emacs user pointer. -/
def em_user_ptrp : EmacsValue → Bool
  | .userPtr _ => true
  | .notUserPtr _ => false

/-- `egit_get_type` (egit.c lines 18-24): `EGIT_UNKNOWN` for non-user-pointer
values, otherwise the `type` field of the wrapper payload. -/
def egit_get_type : EmacsValue → EgitType
  | .notUserPtr _ => .EGIT_UNKNOWN
  | .userPtr w => w.type

/-- The type-error signal `em_signal_wrong_type(env, predicate, obj)` raises:
it names the expected predicate symbol (modelled as a number) and carries the
offending value. -/
structure WrongTypeSignal where
  predicate : Nat
  value : EmacsValue
deriving Repr, DecidableEq

/-- `egit_assert_type` (egit.c lines 26-32): returns `true` with no signal
when the value's type matches, otherwise signals `wrong-type-argument`
naming `predicate` and returns `false`. -/
def egit_assert_type (obj : EmacsValue) (type : EgitType) (predicate : Nat) :
    Bool × Option WrongTypeSignal :=
  if type = egit_get_type obj then (true, none)
  else (false, some ⟨predicate, obj⟩)

/-- `egit_assert_object` (egit.c lines 34-42): accepts the five object kinds,
otherwise signals `git-object-p`. -/
def egit_assert_object (obj : EmacsValue) (git_object_p : Nat) :
    Bool × Option WrongTypeSignal :=
  let type := egit_get_type obj
  if type = .EGIT_COMMIT ∨ type = .EGIT_TREE ∨
     type = .EGIT_BLOB ∨ type = .EGIT_TAG ∨ type = .EGIT_OBJECT
  then (true, none)
  else (false, some ⟨git_object_p, obj⟩)

/-- The owner edge of a wrapper of a given kind, per the `switch` statements
in `egit_wrap` (lines 140-153) and `egit_decref_wrapper` (lines 66-88): the
five object kinds use `git_object_owner`, references use
`git_reference_owner`, repositories and `EGIT_UNKNOWN` have no owner. -/
def wrapOwner (vcl : Vcl) (type : EgitType) (p : Ptr) : Option Ptr :=
  match type with
  | .EGIT_COMMIT | .EGIT_TREE | .EGIT_BLOB | .EGIT_TAG | .EGIT_OBJECT =>
      some (vcl.objectOwner p)
  | .EGIT_REFERENCE => some (vcl.referenceOwner p)
  | _ => none

/-- The owner edge of a stored wrapper record. -/
def childOwner (vcl : Vcl) (w : EgitObject) : Option Ptr :=
  wrapOwner vcl w.type w.ptr

/-- Number of live wrapper records whose owner edge points at `q` (the
children that pin `q` alive). -/
def childPins (vcl : Vcl) : Store → Ptr → Nat
  | [], _ => 0
  | w :: rest, q =>
    (if childOwner vcl w = some q then 1 else 0) + childPins vcl rest q

/-- `egit_incref` (egit.c lines 102-121): if the pointer is already stored,
bump its refcount (the `type` argument is ignored); otherwise insert a fresh
wrapper `{type, refcount = 1, ptr}`.  Returns the updated store and the
wrapper the C function returns a pointer to (its field values at return
time). -/
def egit_incref (type : EgitType) (s : Store) (obj : Ptr) : Store × EgitObject :=
  match lookupPtr s obj with
  | some retval =>
    (storeSet s obj (retval.refcount + 1), { retval with refcount := retval.refcount + 1 })
  | none =>
    (s ++ [⟨type, 1, obj⟩], ⟨type, 1, obj⟩)

/-- The kind-refinement switch at the top of `egit_wrap` (lines 126-134),
mapping `git_object_type(data)` to a specific `egit_type` and keeping
`EGIT_OBJECT` for any other dynamic kind. -/
def refineObjectType (dyn : GitObjType) : EgitType :=
  match dyn with
  | .commit => .EGIT_COMMIT
  | .tree => .EGIT_TREE
  | .blob => .EGIT_BLOB
  | .tag => .EGIT_TAG
  | .other => .EGIT_OBJECT

/-- `egit_wrap` (egit.c lines 123-157): refine an `EGIT_OBJECT` hint via
`git_object_type`, incref the wrapper itself, then unconditionally incref the
owner repository per the ownership switch.  Returns the updated store and the
wrapper record behind the returned Emacs handle (whose finalizer is
`egit_decref_wrapper`); the handle's key is the record's `ptr` field. -/
def egit_wrap (vcl : Vcl) (type : EgitType) (s : Store) (data : Ptr) :
    Store × EgitObject :=
  let type1 := if type = .EGIT_OBJECT then refineObjectType (vcl.objectType data) else type
  let r1 := egit_incref type1 s data
  match wrapOwner vcl type1 data with
  | some owner => ((egit_incref .EGIT_REPOSITORY r1.1 owner).1, r1.2)
  | none => (r1.1, r1.2)

/-- The mutually recursive pair `egit_decref_wrapper` / `egit_decref_wrapped`
(egit.c lines 44-92), written with an explicit fuel argument so that the
recursion is structural.  Each level: look the pointer up
(`egit_decref_wrapped`); a missing entry means `egit_decref_wrapper` is
handed NULL and the process crashes on `obj->refcount--` before any mutation,
modelled as `none`.  Otherwise decrement the refcount; if it is still nonzero
stop; if it reached zero, delete the entry (`HASH_DEL`), call the libgit2
free function for the stored kind, and cascade a release-by-pointer to the
owner.  The trace records the decrement and free calls in program order.
Each recursion level removes one table entry before recursing, so a fuel of
`s.length + 1` (used by `egit_decref_wrapped` below) never runs out. -/
def decrefAux (vcl : Vcl) : Nat → Store → Ptr → Option (Store × List Event)
  | 0, _, _ => none
  | fuel + 1, s, p =>
    match lookupPtr s p with
    | none => none
    | some w =>
      let rc := w.refcount - 1
      if rc ≠ 0 then
        some (storeSet s p rc, [Event.decref p])
      else
        let s2 := storeRemove (storeSet s p rc) p
        match w.type with
        | .EGIT_COMMIT | .EGIT_TREE | .EGIT_BLOB | .EGIT_TAG | .EGIT_OBJECT =>
          match decrefAux vcl fuel s2 (vcl.objectOwner p) with
          | none => none
          | some (s3, tr) => some (s3, Event.decref p :: Event.objectFree p :: tr)
        | .EGIT_REFERENCE =>
          match decrefAux vcl fuel s2 (vcl.referenceOwner p) with
          | none => none
          | some (s3, tr) => some (s3, Event.decref p :: Event.referenceFree p :: tr)
        | .EGIT_REPOSITORY => some (s2, [Event.decref p, Event.repositoryFree p])
        | .EGIT_UNKNOWN => some (s2, [Event.decref p])

/-- `egit_decref_wrapped` (egit.c lines 44-50): release-by-pointer.  Under key
uniqueness this also models the finalizer entry point
`egit_decref_wrapper(w)` for a wrapper `w` that is in the table, invoked as
`egit_decref_wrapped vcl s w.ptr`. -/
def egit_decref_wrapped (vcl : Vcl) (s : Store) (p : Ptr) :
    Option (Store × List Event) :=
  decrefAux vcl (s.length + 1) s p

/-- `egit_dispatch_error` (egit.c lines 177-186), with `giterr_last()`
modelled as a parameter.  Returns the C boolean result together with the
signal raised through `em_signal_giterr` (klass and message), if any. -/
def egit_dispatch_error (lastError : Option GitError) (retval : Int) :
    Bool × Option (Int × String) :=
  if 0 ≤ retval then (false, none)
  else
    match lastError with
    | none => (false, none)
    | some err => (true, some (err.klass, err.message))

/-- A host-driven operation on the CORE: a binding calling `egit_wrap`, or
the Emacs garbage collector finalizing one previously returned handle. -/
inductive HostOp where
  | wrap (type : EgitType) (p : Ptr)
  | release (p : Ptr)
deriving Repr, DecidableEq

/-- Run a sequence of host operations from a given store, collecting the
release-path event trace.  A `release p` finalizes a handle whose wrapper is
keyed by `p`; `none` propagates the crash case of the release path. -/
def runOps (vcl : Vcl) : Store → List Event → List HostOp → Option (Store × List Event)
  | s, tr, [] => some (s, tr)
  | s, tr, .wrap ty p :: rest => runOps vcl (egit_wrap vcl ty s p).1 tr rest
  | s, tr, .release p :: rest =>
    match egit_decref_wrapped vcl s p with
    | none => none
    | some (s', tr') => runOps vcl s' (tr ++ tr') rest

/-- The host-visible state: the object store together with the multiset of
outstanding host handles (one entry per handle Emacs has not yet finalized),
each recorded as the key of its wrapper. -/
structure HostState where
  store : Store
  handles : List Ptr
deriving Repr, DecidableEq

/-- States reachable by the CORE from module load: the empty table with no
handles; any `egit_wrap` call (which hands one new handle to the host); and
any finalizer run, which consumes one outstanding handle and runs the release
path on its wrapper's key.  The `some`-hypothesis of `release` records the
resulting store (the crash case leaves no successor state). -/
inductive Reachable (vcl : Vcl) : HostState → Prop where
  | init : Reachable vcl ⟨[], []⟩
  | wrap (st : HostState) (ty : EgitType) (p : Ptr) (h : Reachable vcl st) :
      Reachable vcl ⟨(egit_wrap vcl ty st.store p).1, p :: st.handles⟩
  | release (st : HostState) (p : Ptr) (s' : Store) (tr : List Event)
      (h : Reachable vcl st) (hp : 1 ≤ countH st.handles p)
      (heq : egit_decref_wrapped vcl st.store p = some (s', tr)) :
      Reachable vcl ⟨s', eraseH st.handles p⟩

/-- Whether an event is a libgit2 free call on pointer `q`. -/
def isFreeOf (e : Event) (q : Ptr) : Bool :=
  match e with
  | .objectFree r => r = q
  | .referenceFree r => r = q
  | .repositoryFree r => r = q
  | .decref _ => false

/-- The libgit2 free call `egit_decref_wrapper` makes for a wrapper, per its
kind switch: `git_reference_free` for references, `git_repository_free` for
repositories, `git_object_free` for the object kinds. -/
def freeEvent (w : EgitObject) : Event :=
  match w.type with
  | .EGIT_REFERENCE => .referenceFree w.ptr
  | .EGIT_REPOSITORY => .repositoryFree w.ptr
  | _ => .objectFree w.ptr

/-- The CORE's state invariant tying the table to the outstanding host
handles: keys are unique; every wrapper's refcount covers its outstanding
host handles plus the live children listing it as owner; every live child's
owner is live; and every outstanding handle refers to a live wrapper. -/
def StoreInv (vcl : Vcl) (s : Store) (hs : List Ptr) : Prop :=
  keysUnique s ∧
  (∀ w ∈ s, (countH hs w.ptr : Int) + (childPins vcl s w.ptr : Int) ≤ w.refcount) ∧
  (∀ w ∈ s, ∀ q, childOwner vcl w = some q → ∃ u ∈ s, u.ptr = q) ∧
  (∀ p, 1 ≤ countH hs p → ∃ w ∈ s, w.ptr = p)

/-- A sample libgit2 world for concrete runs: every object and reference is
owned by the repository at address 20; dynamic classification is
unrecognized. -/
def vclSample : Vcl :=
  ⟨fun _ => GitObjType.other, fun _ => 20, fun _ => 20⟩

/-- A sample libgit2 world in which every pointer classifies dynamically as a
commit, owned by the repository at address 20. -/
def vclCommit : Vcl :=
  ⟨fun _ => GitObjType.commit, fun _ => 20, fun _ => 20⟩

/-! ### Basic lemmas about the table operations -/

theorem lookupPtr_ptr {s : Store} {p : Ptr} {w : EgitObject}
    (h : lookupPtr s p = some w) : w.ptr = p := by
  induction s with
  | nil => simp [lookupPtr] at h
  | cons a rest ih =>
    by_cases hap : a.ptr = p
    · rw [lookupPtr, if_pos hap] at h
      cases h
      exact hap
    · rw [lookupPtr, if_neg hap] at h
      exact ih h

theorem lookupPtr_mem {s : Store} {p : Ptr} {w : EgitObject}
    (h : lookupPtr s p = some w) : w ∈ s := by
  induction s with
  | nil => simp [lookupPtr] at h
  | cons a rest ih =>
    by_cases hap : a.ptr = p
    · rw [lookupPtr, if_pos hap] at h
      cases h
      exact List.mem_cons_self _ _
    · rw [lookupPtr, if_neg hap] at h
      exact List.mem_cons_of_mem a (ih h)

theorem lookupPtr_isSome_of_mem {s : Store} {p : Ptr} {w : EgitObject}
    (hw : w ∈ s) (hp : w.ptr = p) : (lookupPtr s p).isSome := by
  induction s with
  | nil => cases hw
  | cons a rest ih =>
    rcases List.mem_cons.mp hw with rfl | hw
    · rw [lookupPtr, if_pos hp]
      rfl
    · by_cases hap : a.ptr = p
      · rw [lookupPtr, if_pos hap]
        rfl
      · rw [lookupPtr, if_neg hap]
        exact ih hw

theorem lookupPtr_eq_none_iff {s : Store} {p : Ptr} :
    lookupPtr s p = none ↔ ∀ w ∈ s, w.ptr ≠ p := by
  induction s with
  | nil => simp [lookupPtr]
  | cons a rest ih =>
    by_cases hap : a.ptr = p
    · rw [lookupPtr, if_pos hap]
      simp only [List.mem_cons]
      constructor
      · intro h
        cases h
      · intro h
        exact absurd hap (h a (Or.inl rfl))
    · rw [lookupPtr, if_neg hap]
      rw [ih]
      constructor
      · intro h w hw
        rcases List.mem_cons.mp hw with rfl | hw
        · exact hap
        · exact h w hw
      · intro h w hw
        exact h w (List.mem_cons_of_mem a hw)

theorem lookupPtr_unique {s : Store} {p : Ptr} {w : EgitObject}
    (hu : keysUnique s) (hw : w ∈ s) (hp : w.ptr = p) :
    lookupPtr s p = some w := by
  induction s with
  | nil => cases hw
  | cons a rest ih =>
    rw [keysUnique, List.pairwise_cons] at hu
    rcases List.mem_cons.mp hw with rfl | hw
    · rw [lookupPtr, if_pos hp]
    · by_cases hap : a.ptr = p
      · exact absurd (hap.trans hp.symm) (hu.1 w hw)
      · rw [lookupPtr, if_neg hap]
        exact ih hu.2 hw

theorem length_storeSet (s : Store) (p : Ptr) (rc : Int) :
    (storeSet s p rc).length = s.length := by
  induction s with
  | nil => rfl
  | cons a rest ih => simp [storeSet, ih]

theorem mem_storeSet {s : Store} {p : Ptr} {rc : Int} {w' : EgitObject} :
    w' ∈ storeSet s p rc ↔
      ∃ w ∈ s, w' = if w.ptr = p then { w with refcount := rc } else w := by
  induction s with
  | nil => simp [storeSet]
  | cons a rest ih =>
    rw [storeSet, List.mem_cons, ih]
    constructor
    · intro h
      rcases h with h | ⟨w, hw, hw'⟩
      · exact ⟨a, List.mem_cons_self a rest, h⟩
      · exact ⟨w, List.mem_cons_of_mem a hw, hw'⟩
    · rintro ⟨w, hw, hw'⟩
      rcases List.mem_cons.mp hw with rfl | hw
      · exact Or.inl hw'
      · exact Or.inr ⟨w, hw, hw'⟩

theorem ptr_type_of_mem_storeSet {s : Store} {p : Ptr} {rc : Int} {w' : EgitObject}
    (h : w' ∈ storeSet s p rc) :
    ∃ w ∈ s, w'.ptr = w.ptr ∧ w'.type = w.type := by
  rcases mem_storeSet.mp h with ⟨w, hw, hw'⟩
  refine ⟨w, hw, ?_⟩
  by_cases hwp : w.ptr = p
  · rw [if_pos hwp] at hw'
    subst hw'
    exact ⟨rfl, rfl⟩
  · rw [if_neg hwp] at hw'
    subst hw'
    exact ⟨rfl, rfl⟩

theorem storeSet_image_of_mem {s : Store} {p : Ptr} {v : Int} {w : EgitObject}
    (hw : w ∈ s) :
    ∃ w' ∈ storeSet s p v, w'.ptr = w.ptr ∧ w'.type = w.type := by
  refine ⟨if w.ptr = p then { w with refcount := v } else w,
    mem_storeSet.mpr ⟨w, hw, rfl⟩, ?_⟩
  by_cases h : w.ptr = p <;> simp [h]

theorem keysUnique_storeSet {s : Store} {p : Ptr} {rc : Int}
    (hu : keysUnique s) : keysUnique (storeSet s p rc) := by
  induction s with
  | nil => exact List.Pairwise.nil
  | cons a rest ih =>
    rw [keysUnique, List.pairwise_cons] at hu
    rw [storeSet, keysUnique, List.pairwise_cons]
    constructor
    · intro b hb
      rcases ptr_type_of_mem_storeSet hb with ⟨b0, hb0, hbp, _⟩
      have : a.ptr ≠ b0.ptr := hu.1 b0 hb0
      by_cases hap : a.ptr = p <;> simp [hap, hbp] <;> [exact hap ▸ this; exact this]
    · exact ih hu.2

theorem lookupPtr_storeSet_self {s : Store} {p : Ptr} {w : EgitObject} {rc : Int}
    (h : lookupPtr s p = some w) :
    lookupPtr (storeSet s p rc) p = some { w with refcount := rc } := by
  induction s with
  | nil => simp [lookupPtr] at h
  | cons a rest ih =>
    by_cases hap : a.ptr = p
    · rw [lookupPtr, if_pos hap] at h
      cases h
      rw [storeSet, if_pos hap, lookupPtr, if_pos hap]
    · rw [lookupPtr, if_neg hap] at h
      rw [storeSet, if_neg hap, lookupPtr, if_neg hap]
      exact ih h

theorem lookupPtr_storeSet_ne {s : Store} {p r : Ptr} {v : Int}
    (h : r ≠ p) : lookupPtr (storeSet s p v) r = lookupPtr s r := by
  induction s with
  | nil => rfl
  | cons a rest ih =>
    by_cases hap : a.ptr = p
    · have har : a.ptr ≠ r := fun hh => h ((hh.symm.trans hap).symm ▸ rfl)
      rw [storeSet, if_pos hap, lookupPtr, if_neg (by simpa [hap] using fun hh => h hh.symm),
        lookupPtr, if_neg har]
      exact ih
    · rw [storeSet, if_neg hap, lookupPtr, lookupPtr]
      by_cases har : a.ptr = r
      · rw [if_pos har, if_pos har]
      · rw [if_neg har, if_neg har]
        exact ih

theorem countKey_storeSet (s : Store) (p r : Ptr) (rc : Int) :
    countKey (storeSet s p rc) r = countKey s r := by
  induction s with
  | nil => rfl
  | cons a rest ih =>
    by_cases hap : a.ptr = p <;>
      simp [storeSet, countKey, hap, ih]

theorem mem_of_mem_storeRemove {s : Store} {p : Ptr} {w : EgitObject}
    (h : w ∈ storeRemove s p) : w ∈ s := by
  induction s with
  | nil => simp [storeRemove] at h
  | cons a rest ih =>
    by_cases hap : a.ptr = p
    · rw [storeRemove, if_pos hap] at h
      exact List.mem_cons_of_mem a h
    · rw [storeRemove, if_neg hap] at h
      rcases List.mem_cons.mp h with rfl | h
      · exact List.mem_cons_self _ _
      · exact List.mem_cons_of_mem a (ih h)

theorem mem_storeRemove_of_ne {s : Store} {p : Ptr} {w : EgitObject}
    (hw : w ∈ s) (hp : w.ptr ≠ p) : w ∈ storeRemove s p := by
  induction s with
  | nil => cases hw
  | cons a rest ih =>
    by_cases hap : a.ptr = p
    · rcases List.mem_cons.mp hw with rfl | hw
      · exact absurd hap hp
      · rw [storeRemove, if_pos hap]
        exact hw
    · rcases List.mem_cons.mp hw with rfl | hw
      · rw [storeRemove, if_neg hap]
        exact List.mem_cons_self _ _
      · rw [storeRemove, if_neg hap]
        exact List.mem_cons_of_mem a (ih hw)

theorem length_storeRemove {s : Store} {p : Ptr}
    (h : (lookupPtr s p).isSome) : (storeRemove s p).length + 1 = s.length := by
  induction s with
  | nil => simp [lookupPtr] at h
  | cons a rest ih =>
    by_cases hap : a.ptr = p
    · rw [storeRemove, if_pos hap]
      rfl
    · rw [lookupPtr, if_neg hap] at h
      rw [storeRemove, if_neg hap]
      simpa [List.length_cons] using ih h

theorem keysUnique_storeRemove {s : Store} {p : Ptr}
    (hu : keysUnique s) : keysUnique (storeRemove s p) := by
  induction s with
  | nil => exact List.Pairwise.nil
  | cons a rest ih =>
    rw [keysUnique, List.pairwise_cons] at hu
    by_cases hap : a.ptr = p
    · rw [storeRemove, if_pos hap]
      exact hu.2
    · rw [storeRemove, if_neg hap, keysUnique, List.pairwise_cons]
      exact ⟨fun b hb => hu.1 b (mem_of_mem_storeRemove hb), ih hu.2⟩

theorem lookupPtr_storeRemove_ne {s : Store} {p r : Ptr}
    (h : r ≠ p) : lookupPtr (storeRemove s p) r = lookupPtr s r := by
  induction s with
  | nil => rfl
  | cons a rest ih =>
    by_cases hap : a.ptr = p
    · have har : a.ptr ≠ r := fun hh => h ((hh.symm.trans hap).symm ▸ rfl)
      rw [storeRemove, if_pos hap, lookupPtr, if_neg har]
    · rw [storeRemove, if_neg hap, lookupPtr, lookupPtr]
      by_cases har : a.ptr = r
      · rw [if_pos har, if_pos har]
      · rw [if_neg har, if_neg har]
        exact ih

theorem lookupPtr_storeRemove_self {s : Store} {p : Ptr}
    (hu : keysUnique s) : lookupPtr (storeRemove s p) p = none := by
  induction s with
  | nil => rfl
  | cons a rest ih =>
    rw [keysUnique, List.pairwise_cons] at hu
    by_cases hap : a.ptr = p
    · rw [storeRemove, if_pos hap, lookupPtr_eq_none_iff]
      intro w hw hwp
      exact hu.1 w hw (hap.trans hwp.symm)
    · rw [storeRemove, if_neg hap, lookupPtr, if_neg hap]
      exact ih hu.2

theorem lookupPtr_append_left {s t : Store} {p : Ptr} {w : EgitObject}
    (h : lookupPtr s p = some w) : lookupPtr (s ++ t) p = some w := by
  induction s with
  | nil => simp [lookupPtr] at h
  | cons a rest ih =>
    by_cases hap : a.ptr = p
    · rw [lookupPtr, if_pos hap] at h
      rw [List.cons_append, lookupPtr, if_pos hap]
      exact h
    · rw [lookupPtr, if_neg hap] at h
      rw [List.cons_append, lookupPtr, if_neg hap]
      exact ih h

theorem lookupPtr_append_single {s : Store} {p : Ptr} {w : EgitObject}
    (h : lookupPtr s p = none) :
    lookupPtr (s ++ [w]) p = if w.ptr = p then some w else none := by
  induction s with
  | nil => simp [lookupPtr]
  | cons a rest ih =>
    by_cases hap : a.ptr = p
    · rw [lookupPtr, if_pos hap] at h
      cases h
    · rw [lookupPtr, if_neg hap] at h
      rw [List.cons_append, lookupPtr, if_neg hap]
      exact ih h

theorem countKey_append_single (s : Store) (w : EgitObject) (r : Ptr) :
    countKey (s ++ [w]) r = countKey s r + (if w.ptr = r then 1 else 0) := by
  induction s with
  | nil => simp [countKey]
  | cons a rest ih =>
    rw [List.cons_append, countKey, countKey, ih]
    omega

theorem keysUnique_append_single {s : Store} {w : EgitObject}
    (hu : keysUnique s) (h : lookupPtr s w.ptr = none) :
    keysUnique (s ++ [w]) := by
  induction s with
  | nil => simp [keysUnique]
  | cons a rest ih =>
    rw [keysUnique, List.pairwise_cons] at hu
    by_cases hap : a.ptr = w.ptr
    · rw [lookupPtr, if_pos hap] at h
      cases h
    · rw [lookupPtr, if_neg hap] at h
      rw [List.cons_append, keysUnique, List.pairwise_cons]
      constructor
      · intro b hb
        rcases List.mem_append.mp hb with hb | hb
        · exact hu.1 b hb
        · rw [List.mem_singleton] at hb
          subst hb
          exact hap
      · exact ih hu.2 h

theorem countH_eraseH_self {hs : List Ptr} {p : Ptr}
    (h : 1 ≤ countH hs p) : countH (eraseH hs p) p + 1 = countH hs p := by
  induction hs with
  | nil => simp [countH] at h
  | cons q rest ih =>
    by_cases hq : q = p
    · rw [eraseH, if_pos hq, countH, if_pos hq]
      omega
    · rw [countH, if_neg hq] at h
      rw [eraseH, if_neg hq, countH, if_neg hq, countH, if_neg hq]
      simpa using ih (by omega)

theorem countH_eraseH_ne {hs : List Ptr} {p r : Ptr} (h : r ≠ p) :
    countH (eraseH hs p) r = countH hs r := by
  induction hs with
  | nil => rfl
  | cons q rest ih =>
    by_cases hq : q = p
    · have hqr : q ≠ r := fun hh => h (hh ▸ hq)
      rw [eraseH, if_pos hq, countH, if_neg hqr]
      omega
    · rw [eraseH, if_neg hq, countH, countH, ih]

theorem countH_eraseH_le (hs : List Ptr) (p r : Ptr) :
    countH (eraseH hs p) r ≤ countH hs r := by
  induction hs with
  | nil => exact Nat.le_refl 0
  | cons q rest ih =>
    by_cases hq : q = p
    · rw [eraseH, if_pos hq, countH]
      by_cases hqr : q = r
      · rw [if_pos hqr]
        omega
      · rw [if_neg hqr]
        omega
    · rw [eraseH, if_neg hq, countH, countH]
      by_cases hqr : q = r
      · rw [if_pos hqr]
        omega
      · rw [if_neg hqr]
        omega

/-! ### Lemmas about owner edges and child pins -/

theorem childOwner_refcount (vcl : Vcl) (w : EgitObject) (rc : Int) :
    childOwner vcl { w with refcount := rc } = childOwner vcl w := rfl

theorem childPins_storeSet (vcl : Vcl) (s : Store) (p r : Ptr) (rc : Int) :
    childPins vcl (storeSet s p rc) r = childPins vcl s r := by
  induction s with
  | nil => rfl
  | cons a rest ih =>
    by_cases hap : a.ptr = p
    · rw [storeSet, if_pos hap, childPins, childPins, childOwner_refcount, ih]
    · rw [storeSet, if_neg hap, childPins, childPins, ih]

theorem childPins_append_single (vcl : Vcl) (s : Store) (w : EgitObject) (r : Ptr) :
    childPins vcl (s ++ [w]) r
      = childPins vcl s r + (if childOwner vcl w = some r then 1 else 0) := by
  induction s with
  | nil =>
    rw [List.nil_append, childPins, childPins, childPins]
    omega
  | cons a rest ih =>
    rw [List.cons_append, childPins, childPins, ih]
    omega

theorem childPins_storeRemove (vcl : Vcl) {s : Store} {p : Ptr} {w : EgitObject}
    (h : lookupPtr s p = some w) (r : Ptr) :
    childPins vcl (storeRemove s p) r
        + (if childOwner vcl w = some r then 1 else 0)
      = childPins vcl s r := by
  induction s with
  | nil => simp [lookupPtr] at h
  | cons a rest ih =>
    by_cases hap : a.ptr = p
    · rw [lookupPtr, if_pos hap] at h
      cases h
      rw [storeRemove, if_pos hap, childPins]
      omega
    · rw [lookupPtr, if_neg hap] at h
      rw [storeRemove, if_neg hap, childPins, childPins]
      have := ih h
      omega

theorem childPins_pos (vcl : Vcl) {s : Store} {w : EgitObject} {q : Ptr}
    (hw : w ∈ s) (h : childOwner vcl w = some q) : 1 ≤ childPins vcl s q := by
  induction s with
  | nil => cases hw
  | cons a rest ih =>
    rcases List.mem_cons.mp hw with rfl | hw
    · rw [childPins, if_pos h]
      omega
    · rw [childPins]
      have := ih hw
      omega

theorem exists_of_childPins_pos (vcl : Vcl) {s : Store} {q : Ptr}
    (h : 1 ≤ childPins vcl s q) : ∃ w ∈ s, childOwner vcl w = some q := by
  induction s with
  | nil => simp [childPins] at h
  | cons a rest ih =>
    by_cases ha : childOwner vcl a = some q
    · exact ⟨a, List.mem_cons_self _ _, ha⟩
    · rw [childPins, if_neg ha] at h
      rcases ih (by omega) with ⟨w, hw, hw'⟩
      exact ⟨w, List.mem_cons_of_mem a hw, hw'⟩

theorem countKey_eq_zero_of_lookup_none {s : Store} {p : Ptr}
    (h : lookupPtr s p = none) : countKey s p = 0 := by
  induction s with
  | nil => rfl
  | cons a rest ih =>
    by_cases hap : a.ptr = p
    · rw [lookupPtr, if_pos hap] at h
      cases h
    · rw [lookupPtr, if_neg hap] at h
      rw [countKey, if_neg hap, ih h]

theorem lookup_isSome_of_countKey_pos {s : Store} {p : Ptr}
    (h : 1 ≤ countKey s p) : (lookupPtr s p).isSome := by
  induction s with
  | nil => simp [countKey] at h
  | cons a rest ih =>
    by_cases hap : a.ptr = p
    · rw [lookupPtr, if_pos hap]
      rfl
    · rw [countKey, if_neg hap] at h
      rw [lookupPtr, if_neg hap]
      exact ih (by omega)

/-! ### Claim theorems: type discrimination and error adapter -/

/-- Claim C9: `egit_get_type` returns `EGIT_UNKNOWN` when the host value does
not carry one of the CORE's wrappers (it is not a user pointer; the user
pointers in scope are the module's own, with wrapper payloads), and otherwise
returns the kind stored in the wrapper record. -/
theorem egit_get_type_spec :
    (∀ v : EmacsValue, em_user_ptrp v = false → egit_get_type v = .EGIT_UNKNOWN) ∧
    (∀ w : EgitObject, egit_get_type (.userPtr w) = w.type) := by
  constructor
  · intro v hv
    cases v with
    | userPtr w => simp [em_user_ptrp] at hv
    | notUserPtr n => rfl
  · intro w
    rfl

/-- Witness for C9 at concrete values. -/
theorem egit_get_type_spec_witness :
    egit_get_type (.notUserPtr 5) = .EGIT_UNKNOWN ∧
    egit_get_type (.userPtr ⟨.EGIT_COMMIT, 1, 7⟩) = .EGIT_COMMIT :=
  ⟨egit_get_type_spec.1 (.notUserPtr 5) rfl,
   egit_get_type_spec.2 ⟨.EGIT_COMMIT, 1, 7⟩⟩

/-- Claim C10: any Emacs value that is not a user pointer has
`egit_get_type` = `EGIT_UNKNOWN`, so `egit_assert_type` with expected kind
`EGIT_UNKNOWN` accepts it: it returns true and raises no type-error signal. -/
theorem egit_assert_type_unknown_accepts_non_user_ptr (n predicate : Nat) :
    egit_get_type (.notUserPtr n) = .EGIT_UNKNOWN ∧
    egit_assert_type (.notUserPtr n) .EGIT_UNKNOWN predicate = (true, none) :=
  ⟨rfl, rfl⟩

/-- Claim C7 as stated is false at a concrete input: the return code −1 is
negative, yet with no libgit2 last-error record `egit_dispatch_error`
signals nothing and returns false. -/
theorem egit_dispatch_error_counterexample :
    (-1 : Int) < 0 ∧ egit_dispatch_error none (-1) = (false, none) :=
  ⟨by norm_num, rfl⟩

/-- Claim C7 (amended): for a negative return code the last-error record is
read and, when present, signalled to the host with its klass and message;
when it is absent nothing is signalled and the result is false; the function
returns true iff it signalled; every non-negative code returns false with no
signal. -/
theorem egit_dispatch_error_spec (lastError : Option GitError) (retval : Int) :
    (0 ≤ retval → egit_dispatch_error lastError retval = (false, none)) ∧
    (retval < 0 → lastError = none →
      egit_dispatch_error lastError retval = (false, none)) ∧
    (∀ err, retval < 0 → lastError = some err →
      egit_dispatch_error lastError retval = (true, some (err.klass, err.message))) ∧
    ((egit_dispatch_error lastError retval).1 = true ↔
      (egit_dispatch_error lastError retval).2 ≠ none) := by
  refine ⟨?_, ?_, ?_, ?_⟩
  · intro h
    rw [egit_dispatch_error.eq_def, if_pos h]
  · intro h h2
    subst h2
    rw [egit_dispatch_error.eq_def, if_neg (by omega)]
  · intro err h h2
    subst h2
    rw [egit_dispatch_error.eq_def, if_neg (by omega)]
  · rw [egit_dispatch_error.eq_def]
    by_cases h : 0 ≤ retval
    · rw [if_pos h]
      simp
    · rw [if_neg h]
      cases lastError <;> simp

/-- Witness for C7 (amended) at concrete inputs. -/
theorem egit_dispatch_error_spec_witness :
    egit_dispatch_error (some ⟨3, "msg"⟩) (-1) = (true, some (3, "msg")) ∧
    egit_dispatch_error (some ⟨3, "msg"⟩) 0 = (false, none) :=
  ⟨(egit_dispatch_error_spec (some ⟨3, "msg"⟩) (-1)).2.2.1 ⟨3, "msg"⟩ (by norm_num) rfl,
   (egit_dispatch_error_spec (some ⟨3, "msg"⟩) 0).1 (by norm_num)⟩

/-! ### Claim theorems: release-by-pointer guard and the conservation bug -/

/-- Claim C8: `egit_decref_wrapped` runs the release protocol only when the
table lookup finds a wrapper for the pointer.  When the lookup finds nothing
it hands NULL to `egit_decref_wrapper`, which faults on the very first field
access `obj->refcount--` (modelled as the crash result `none`): no wrapper's
refcount is decremented, no entry is removed, and no libgit2 free runs. -/
theorem egit_decref_wrapped_requires_entry (vcl : Vcl) (s : Store) (p : Ptr) :
    (lookupPtr s p = none → egit_decref_wrapped vcl s p = none) ∧
    (∀ s' tr, egit_decref_wrapped vcl s p = some (s', tr) →
      ∃ w, lookupPtr s p = some w) := by
  constructor
  · intro h
    simp [egit_decref_wrapped, decrefAux, h]
  · intro s' tr h
    cases hl : lookupPtr s p with
    | none =>
      rw [egit_decref_wrapped] at h
      simp [decrefAux, hl] at h
    | some w => exact ⟨w, rfl⟩

/-- Witness for C8: releasing an unknown pointer from the empty table
crashes without effect. -/
theorem egit_decref_wrapped_requires_entry_witness :
    egit_decref_wrapped vclSample [] 0 = none :=
  (egit_decref_wrapped_requires_entry vclSample [] 0).1 rfl

/-- Claim C1 fails on the code (the spec is the intent; the code has an
accounting slip): wrapping the same reference twice and then releasing both
handles — a balanced sequence of 2 Wrap and 2 Release calls over the pointer
set {10} — leaves the owner repository's wrapper in the table with
refcount 1, and the repository at 20 is never freed.  `egit_wrap` increfs
the owner on every wrap of an already-stored child (egit.c lines 139-153,
outside the found/new branch of `egit_incref`), but the release cascade
decrements the owner only once, when the child's refcount reaches zero
(lines 56-59 return early).  The final table is not empty, contradicting
spec P2/I3/I5. -/
theorem balanced_wrap_release_leaks_owner :
    runOps vclSample [] []
        [HostOp.wrap .EGIT_REFERENCE 10, HostOp.wrap .EGIT_REFERENCE 10,
         HostOp.release 10, HostOp.release 10]
      = some ([⟨.EGIT_REPOSITORY, 1, 20⟩],
          [Event.decref 10, Event.decref 10, Event.referenceFree 10,
           Event.decref 20]) ∧
    ([⟨(.EGIT_REPOSITORY : EgitType), (1 : Int), (20 : Ptr)⟩] : Store) ≠ [] :=
  ⟨by decide, by decide⟩

/-! ### Claim theorems: incref and wrap -/

/-- Claim C5: `egit_incref type s p` with `p` already stored bumps exactly
that entry's refcount by one, keeps the stored kind (the `type` argument is
ignored: the call computes the same result for every `type`), and returns
the existing wrapper; with `p` absent it inserts a fresh wrapper
`{type, 1, p}` under key `p` and returns it.  Other keys are untouched in
both cases. -/
theorem egit_incref_spec (type : EgitType) (s : Store) (p : Ptr) :
    (∀ w, lookupPtr s p = some w →
      (egit_incref type s p).2 = { w with refcount := w.refcount + 1 } ∧
      lookupPtr (egit_incref type s p).1 p
        = some { w with refcount := w.refcount + 1 } ∧
      (egit_incref type s p).1.length = s.length ∧
      (∀ type2, egit_incref type2 s p = egit_incref type s p)) ∧
    (lookupPtr s p = none →
      (egit_incref type s p).2 = ⟨type, 1, p⟩ ∧
      lookupPtr (egit_incref type s p).1 p = some ⟨type, 1, p⟩ ∧
      (egit_incref type s p).1.length = s.length + 1) ∧
    (∀ r, r ≠ p → lookupPtr (egit_incref type s p).1 r = lookupPtr s r) := by
  refine ⟨?_, ?_, ?_⟩
  · intro w hw
    refine ⟨by simp [egit_incref, hw], ?_, ?_, ?_⟩
    · simp only [egit_incref, hw]
      exact lookupPtr_storeSet_self hw
    · simp [egit_incref, hw, length_storeSet]
    · intro type2
      simp [egit_incref, hw]
  · intro h
    refine ⟨by simp [egit_incref, h], ?_, ?_⟩
    · simp only [egit_incref, h]
      rw [lookupPtr_append_single h]
      simp
    · simp [egit_incref, h]
  · intro r hr
    cases hl : lookupPtr s p with
    | some w =>
      simp only [egit_incref, hl]
      exact lookupPtr_storeSet_ne hr
    | none =>
      simp only [egit_incref, hl]
      cases hlr : lookupPtr s r with
      | some u => exact lookupPtr_append_left hlr
      | none =>
        rw [lookupPtr_append_single hlr]
        simp only [if_neg (fun hh : p = r => hr hh.symm)]

/-- Witness for C5: incref of a stored repository pointer and incref of a
fresh commit pointer. -/
theorem egit_incref_spec_witness :
    (egit_incref .EGIT_COMMIT [⟨.EGIT_REPOSITORY, 1, 20⟩] 20).2
      = ⟨.EGIT_REPOSITORY, 2, 20⟩ ∧
    (egit_incref .EGIT_COMMIT [] 7).2 = ⟨.EGIT_COMMIT, 1, 7⟩ :=
  ⟨(((egit_incref_spec .EGIT_COMMIT [⟨.EGIT_REPOSITORY, 1, 20⟩] 20).1
      ⟨.EGIT_REPOSITORY, 1, 20⟩ rfl).1).trans (by decide),
   ((egit_incref_spec .EGIT_COMMIT [] 7).2.1 rfl).1⟩

theorem egit_wrap_owner_some {vcl : Vcl} {ty : EgitType} {s : Store} {p q : Ptr}
    (hq : wrapOwner vcl
        (if ty = .EGIT_OBJECT then refineObjectType (vcl.objectType p) else ty) p
      = some q) :
    egit_wrap vcl ty s p
      = ((egit_incref .EGIT_REPOSITORY
            (egit_incref
              (if ty = .EGIT_OBJECT then refineObjectType (vcl.objectType p) else ty)
              s p).1 q).1,
         (egit_incref
            (if ty = .EGIT_OBJECT then refineObjectType (vcl.objectType p) else ty)
            s p).2) := by
  simp only [egit_wrap, hq]

theorem egit_wrap_owner_none {vcl : Vcl} {ty : EgitType} {s : Store} {p : Ptr}
    (hq : wrapOwner vcl
        (if ty = .EGIT_OBJECT then refineObjectType (vcl.objectType p) else ty) p
      = none) :
    egit_wrap vcl ty s p
      = ((egit_incref
            (if ty = .EGIT_OBJECT then refineObjectType (vcl.objectType p) else ty)
            s p).1,
         (egit_incref
            (if ty = .EGIT_OBJECT then refineObjectType (vcl.objectType p) else ty)
            s p).2) := by
  simp only [egit_wrap, hq]

theorem egit_wrap_snd (vcl : Vcl) (ty : EgitType) (s : Store) (p : Ptr) :
    (egit_wrap vcl ty s p).2
      = (egit_incref
          (if ty = .EGIT_OBJECT then refineObjectType (vcl.objectType p) else ty)
          s p).2 := by
  cases hq : wrapOwner vcl
      (if ty = .EGIT_OBJECT then refineObjectType (vcl.objectType p) else ty) p with
  | none => rw [egit_wrap_owner_none hq]
  | some q => rw [egit_wrap_owner_some hq]

theorem egit_wrap_snd_ptr (vcl : Vcl) (ty : EgitType) (s : Store) (p : Ptr) :
    (egit_wrap vcl ty s p).2.ptr = p := by
  rw [egit_wrap_snd]
  cases h : lookupPtr s p with
  | some w =>
    simp only [egit_incref, h]
    exact lookupPtr_ptr h
  | none => simp [egit_incref, h]

theorem lookupPtr_incref_preserves {s : Store} {p : Ptr} {w : EgitObject}
    (ty : EgitType) (q : Ptr) (hw : lookupPtr s p = some w) :
    ∃ rc, lookupPtr (egit_incref ty s q).1 p = some ⟨w.type, rc, w.ptr⟩ := by
  cases hq : lookupPtr s q with
  | some u =>
    simp only [egit_incref, hq]
    by_cases hpq : p = q
    · subst hpq
      rw [hw] at hq
      cases hq
      exact ⟨w.refcount + 1, lookupPtr_storeSet_self hw⟩
    · refine ⟨w.refcount, ?_⟩
      rw [lookupPtr_storeSet_ne hpq, hw]
  | none =>
    simp only [egit_incref, hq]
    exact ⟨w.refcount, lookupPtr_append_left hw⟩

theorem countKey_pos_of_lookup_some {s : Store} {p : Ptr} {w : EgitObject}
    (h : lookupPtr s p = some w) : 1 ≤ countKey s p := by
  induction s with
  | nil => simp [lookupPtr] at h
  | cons a rest ih =>
    by_cases hap : a.ptr = p
    · rw [countKey, if_pos hap]
      omega
    · rw [lookupPtr, if_neg hap] at h
      rw [countKey, if_neg hap]
      have := ih h
      omega

theorem countKey_incref_of_some {s : Store} {p : Ptr} {w : EgitObject}
    (ty : EgitType) (h : lookupPtr s p = some w) (r : Ptr) :
    countKey (egit_incref ty s p).1 r = countKey s r := by
  simp only [egit_incref, h]
  exact countKey_storeSet s p r _

theorem countKey_incref_of_none {s : Store} {p : Ptr}
    (ty : EgitType) (h : lookupPtr s p = none) (r : Ptr) :
    countKey (egit_incref ty s p).1 r
      = countKey s r + (if p = r then 1 else 0) := by
  simp only [egit_incref, h]
  rw [countKey_append_single]

theorem countKey_egit_wrap_self (vcl : Vcl) (ty : EgitType) (s : Store) (p : Ptr) :
    countKey (egit_wrap vcl ty s p).1 p
      = countKey s p + (if lookupPtr s p = none then 1 else 0) := by
  have step1 : countKey (egit_incref
      (if ty = .EGIT_OBJECT then refineObjectType (vcl.objectType p) else ty) s p).1 p
      = countKey s p + (if lookupPtr s p = none then 1 else 0) := by
    cases h : lookupPtr s p with
    | some w =>
      rw [countKey_incref_of_some _ h, if_neg (by simp [h])]
      omega
    | none =>
      rw [countKey_incref_of_none _ h, if_pos rfl, if_pos rfl]
  have hsome1 : 1 ≤ countKey (egit_incref
      (if ty = .EGIT_OBJECT then refineObjectType (vcl.objectType p) else ty) s p).1 p := by
    rw [step1]
    cases h : lookupPtr s p with
    | some w =>
      have := countKey_pos_of_lookup_some h
      omega
    | none => simp
  cases hq : wrapOwner vcl
      (if ty = .EGIT_OBJECT then refineObjectType (vcl.objectType p) else ty) p with
  | none =>
    rw [egit_wrap_owner_none hq]
    exact step1
  | some q =>
    rw [egit_wrap_owner_some hq]
    cases h2 : lookupPtr (egit_incref
        (if ty = .EGIT_OBJECT then refineObjectType (vcl.objectType p) else ty) s p).1 q with
    | some u => rw [countKey_incref_of_some _ h2, step1]
    | none =>
      rw [countKey_incref_of_none _ h2]
      have hqp : q ≠ p := by
        intro hqp
        subst hqp
        rw [countKey_eq_zero_of_lookup_none h2] at hsome1
        omega
      rw [if_neg hqp, step1]
      omega

/-- Claim C6: wrapping a pointer not yet in the table with hint
`EGIT_OBJECT` stores, and hands to the host, a wrapper whose kind is
libgit2's dynamic classification of the pointer when that classification is
commit, tree, blob or tag, and `EGIT_OBJECT` for any other classification;
the refinement runs before `egit_incref`, so the first insert already stores
the refined kind. -/
theorem egit_wrap_object_refinement (vcl : Vcl) (s : Store) (p : Ptr)
    (h : lookupPtr s p = none) :
    ∃ w, lookupPtr (egit_wrap vcl .EGIT_OBJECT s p).1 p = some w ∧
      (egit_wrap vcl .EGIT_OBJECT s p).2.type = w.type ∧
      w.ptr = p ∧
      w.type = (match vcl.objectType p with
                | .commit => .EGIT_COMMIT
                | .tree => .EGIT_TREE
                | .blob => .EGIT_BLOB
                | .tag => .EGIT_TAG
                | .other => .EGIT_OBJECT) := by
  have hsnd : (egit_wrap vcl .EGIT_OBJECT s p).2
      = ⟨refineObjectType (vcl.objectType p), 1, p⟩ := by
    rw [egit_wrap_snd, if_pos rfl]
    simp [egit_incref, h]
  have hq : wrapOwner vcl
      (if (.EGIT_OBJECT : EgitType) = .EGIT_OBJECT
        then refineObjectType (vcl.objectType p) else .EGIT_OBJECT) p
      = some (vcl.objectOwner p) := by
    rw [if_pos rfl]
    cases hdyn : vcl.objectType p <;> simp [refineObjectType, wrapOwner, hdyn]
  have hw1 : lookupPtr (egit_incref
      (if (.EGIT_OBJECT : EgitType) = .EGIT_OBJECT
        then refineObjectType (vcl.objectType p) else .EGIT_OBJECT) s p).1 p
      = some ⟨refineObjectType (vcl.objectType p), 1, p⟩ := by
    rw [if_pos rfl]
    simp only [egit_incref, h]
    rw [lookupPtr_append_single h]
    simp
  rcases lookupPtr_incref_preserves .EGIT_REPOSITORY (vcl.objectOwner p) hw1 with ⟨rc, hrc⟩
  refine ⟨⟨refineObjectType (vcl.objectType p), rc, p⟩, ?_, ?_, rfl, ?_⟩
  · rw [egit_wrap_owner_some hq]
    exact hrc
  · rw [hsnd]
  · cases hdyn : vcl.objectType p <;> simp [refineObjectType, hdyn]

/-- Witness for C6: wrapping the fresh pointer 10, which classifies as a
commit, stores kind `EGIT_COMMIT`. -/
theorem egit_wrap_object_refinement_witness :
    ∃ w, lookupPtr (egit_wrap vclCommit .EGIT_OBJECT [] 10).1 10 = some w ∧
      (egit_wrap vclCommit .EGIT_OBJECT [] 10).2.type = w.type ∧
      w.ptr = 10 ∧
      w.type = (match vclCommit.objectType 10 with
                | .commit => .EGIT_COMMIT
                | .tree => .EGIT_TREE
                | .blob => .EGIT_BLOB
                | .tag => .EGIT_TAG
                | .other => .EGIT_OBJECT) :=
  egit_wrap_object_refinement vclCommit [] 10 rfl

/-- Claim C4: wrapping the same pointer twice without an intervening release
hands out handles backed by the same wrapper record: the second wrap finds
and reuses the record created by the first (same key, same stored kind), and
the table holds exactly one entry keyed by that pointer. -/
theorem egit_wrap_twice_identity (vcl : Vcl) (ty1 ty2 : EgitType) (s : Store)
    (p : Ptr) (hcount : countKey s p ≤ 1) :
    (egit_wrap vcl ty1 s p).2.ptr = p ∧
    (egit_wrap vcl ty2 (egit_wrap vcl ty1 s p).1 p).2.ptr = p ∧
    countKey (egit_wrap vcl ty2 (egit_wrap vcl ty1 s p).1 p).1 p = 1 ∧
    (∃ w1 w2, lookupPtr (egit_wrap vcl ty1 s p).1 p = some w1 ∧
      lookupPtr (egit_wrap vcl ty2 (egit_wrap vcl ty1 s p).1 p).1 p = some w2 ∧
      w2.type = w1.type ∧ w2.ptr = w1.ptr) := by
  have hc1 : countKey (egit_wrap vcl ty1 s p).1 p = 1 := by
    rw [countKey_egit_wrap_self]
    cases h : lookupPtr s p with
    | some w =>
      have hpos := countKey_pos_of_lookup_some h
      rw [if_neg (by simp : ¬(some w = none))]
      omega
    | none =>
      rw [if_pos rfl, countKey_eq_zero_of_lookup_none h]
  have hw1 : ∃ w1, lookupPtr (egit_wrap vcl ty1 s p).1 p = some w1 := by
    have := lookup_isSome_of_countKey_pos (by omega : 1 ≤ countKey (egit_wrap vcl ty1 s p).1 p)
    cases hl : lookupPtr (egit_wrap vcl ty1 s p).1 p with
    | none => rw [hl] at this; cases this
    | some w => exact ⟨w, rfl⟩
  rcases hw1 with ⟨w1, hw1⟩
  have hc2 : countKey (egit_wrap vcl ty2 (egit_wrap vcl ty1 s p).1 p).1 p = 1 := by
    rw [countKey_egit_wrap_self, hw1, if_neg (by simp), hc1]
  have hw2 : ∃ rc, lookupPtr (egit_wrap vcl ty2 (egit_wrap vcl ty1 s p).1 p).1 p
      = some ⟨w1.type, rc, w1.ptr⟩ := by
    have hsetfst : ∀ ty', (egit_incref ty' (egit_wrap vcl ty1 s p).1 p).1
        = storeSet (egit_wrap vcl ty1 s p).1 p (w1.refcount + 1) := by
      intro ty'
      simp [egit_incref, hw1]
    cases hq : wrapOwner vcl
        (if ty2 = .EGIT_OBJECT then refineObjectType (vcl.objectType p) else ty2) p with
    | none =>
      rw [egit_wrap_owner_none hq, hsetfst]
      exact ⟨w1.refcount + 1, lookupPtr_storeSet_self hw1⟩
    | some q =>
      rw [egit_wrap_owner_some hq]
      have hmid : lookupPtr (egit_incref
          (if ty2 = .EGIT_OBJECT then refineObjectType (vcl.objectType p) else ty2)
          (egit_wrap vcl ty1 s p).1 p).1 p
          = some ⟨w1.type, w1.refcount + 1, w1.ptr⟩ := by
        rw [hsetfst]
        exact lookupPtr_storeSet_self hw1
      rcases lookupPtr_incref_preserves .EGIT_REPOSITORY q hmid with ⟨rc, hrc⟩
      exact ⟨rc, hrc⟩
  rcases hw2 with ⟨rc2, hw2⟩
  exact ⟨egit_wrap_snd_ptr vcl ty1 s p,
    egit_wrap_snd_ptr vcl ty2 (egit_wrap vcl ty1 s p).1 p,
    hc2,
    ⟨w1, ⟨w1.type, rc2, w1.ptr⟩, hw1, hw2, rfl, rfl⟩⟩

/-- Witness for C4: wrapping repository pointer 10 twice from the empty
table. -/
theorem egit_wrap_twice_identity_witness :
    (egit_wrap vclSample .EGIT_REPOSITORY [] 10).2.ptr = 10 ∧
    (egit_wrap vclSample .EGIT_REPOSITORY
        (egit_wrap vclSample .EGIT_REPOSITORY [] 10).1 10).2.ptr = 10 ∧
    countKey (egit_wrap vclSample .EGIT_REPOSITORY
        (egit_wrap vclSample .EGIT_REPOSITORY [] 10).1 10).1 10 = 1 ∧
    (∃ w1 w2, lookupPtr (egit_wrap vclSample .EGIT_REPOSITORY [] 10).1 10 = some w1 ∧
      lookupPtr (egit_wrap vclSample .EGIT_REPOSITORY
          (egit_wrap vclSample .EGIT_REPOSITORY [] 10).1 10).1 10 = some w2 ∧
      w2.type = w1.type ∧ w2.ptr = w1.ptr) :=
  egit_wrap_twice_identity vclSample .EGIT_REPOSITORY .EGIT_REPOSITORY [] 10
    (by decide)

/-! ### Claim theorems: free ordering in the release cascade -/

theorem decrefAux_child_step (vcl : Vcl) (fuel : Nat) {s : Store} {c q : Ptr}
    {w : EgitObject} (hw : lookupPtr s c = some w) (hrc : w.refcount = 1)
    (hchild : childOwner vcl w = some q) :
    (decrefAux vcl fuel (storeRemove (storeSet s c 0) c) q = none →
      decrefAux vcl (fuel + 1) s c = none) ∧
    (∀ s3 tr, decrefAux vcl fuel (storeRemove (storeSet s c 0) c) q = some (s3, tr) →
      decrefAux vcl (fuel + 1) s c
        = some (s3, Event.decref c :: freeEvent w :: tr)) := by
  have hwptr : w.ptr = c := lookupPtr_ptr hw
  have h0 : w.refcount - 1 = 0 := by rw [hrc]; norm_num
  rw [childOwner, hwptr] at hchild
  cases hty : w.type with
  | EGIT_UNKNOWN =>
    rw [hty] at hchild
    simp [wrapOwner] at hchild
  | EGIT_REPOSITORY =>
    rw [hty] at hchild
    simp [wrapOwner] at hchild
  | EGIT_COMMIT =>
    simp only [hty, wrapOwner, Option.some.injEq] at hchild
    constructor
    · intro hnone
      simp [decrefAux, hw, h0, hty, hchild, hnone]
    · intro s3 tr h3
      simp [decrefAux, hw, h0, hty, hchild, h3, freeEvent, hwptr]
  | EGIT_TREE =>
    simp only [hty, wrapOwner, Option.some.injEq] at hchild
    constructor
    · intro hnone
      simp [decrefAux, hw, h0, hty, hchild, hnone]
    · intro s3 tr h3
      simp [decrefAux, hw, h0, hty, hchild, h3, freeEvent, hwptr]
  | EGIT_BLOB =>
    simp only [hty, wrapOwner, Option.some.injEq] at hchild
    constructor
    · intro hnone
      simp [decrefAux, hw, h0, hty, hchild, hnone]
    · intro s3 tr h3
      simp [decrefAux, hw, h0, hty, hchild, h3, freeEvent, hwptr]
  | EGIT_TAG =>
    simp only [hty, wrapOwner, Option.some.injEq] at hchild
    constructor
    · intro hnone
      simp [decrefAux, hw, h0, hty, hchild, hnone]
    · intro s3 tr h3
      simp [decrefAux, hw, h0, hty, hchild, h3, freeEvent, hwptr]
  | EGIT_OBJECT =>
    simp only [hty, wrapOwner, Option.some.injEq] at hchild
    constructor
    · intro hnone
      simp [decrefAux, hw, h0, hty, hchild, hnone]
    · intro s3 tr h3
      simp [decrefAux, hw, h0, hty, hchild, h3, freeEvent, hwptr]
  | EGIT_REFERENCE =>
    simp only [hty, wrapOwner, Option.some.injEq] at hchild
    constructor
    · intro hnone
      simp [decrefAux, hw, h0, hty, hchild, hnone]
    · intro s3 tr h3
      simp [decrefAux, hw, h0, hty, hchild, h3, freeEvent, hwptr]

/-- Claim C2: when the release protocol frees a child wrapper — object kinds
capture their owner via `git_object_owner`, references via
`git_reference_owner` — because its refcount reached zero, the libgit2 free
call on the child is issued strictly before the owner's refcount is
decremented: the release trace starts
`decref(child), free(child), decref(owner)`. -/
theorem egit_decref_free_before_owner (vcl : Vcl) (s : Store) (c q : Ptr)
    (w u : EgitObject) (hw : lookupPtr s c = some w) (hrc : w.refcount = 1)
    (hchild : childOwner vcl w = some q) (hqc : q ≠ c)
    (hu : lookupPtr s q = some u) (hrepo : u.type = .EGIT_REPOSITORY) :
    ∃ s' rest, egit_decref_wrapped vcl s c
      = some (s', Event.decref c :: freeEvent w :: Event.decref q :: rest) := by
  have hlen : ∃ m, s.length = m + 1 := by
    cases s with
    | nil => simp [lookupPtr] at hw
    | cons a rest => exact ⟨rest.length, rfl⟩
  rcases hlen with ⟨m, hm⟩
  have hu2 : lookupPtr (storeRemove (storeSet s c 0) c) q = some u := by
    rw [lookupPtr_storeRemove_ne hqc, lookupPtr_storeSet_ne hqc, hu]
  have hstep := decrefAux_child_step vcl (m + 1) hw hrc hchild
  by_cases hz : u.refcount - 1 ≠ 0
  · have hinner : decrefAux vcl (m + 1) (storeRemove (storeSet s c 0) c) q
        = some (storeSet (storeRemove (storeSet s c 0) c) q (u.refcount - 1),
            [Event.decref q]) := by
      simp [decrefAux, hu2, hz]
    refine ⟨storeSet (storeRemove (storeSet s c 0) c) q (u.refcount - 1), [], ?_⟩
    rw [egit_decref_wrapped, hm]
    exact hstep.2 _ _ hinner
  · push_neg at hz
    have hinner : decrefAux vcl (m + 1) (storeRemove (storeSet s c 0) c) q
        = some (storeRemove (storeSet (storeRemove (storeSet s c 0) c) q 0) q,
            [Event.decref q, Event.repositoryFree q]) := by
      simp [decrefAux, hu2, hz, hrepo]
    refine ⟨storeRemove (storeSet (storeRemove (storeSet s c 0) c) q 0) q,
      [Event.repositoryFree q], ?_⟩
    rw [egit_decref_wrapped, hm]
    exact hstep.2 _ _ hinner

/-- Witness for C2: releasing the last handle of reference 10 (owner
repository 20) frees the reference first and only then decrements the
repository. -/
theorem egit_decref_free_before_owner_witness :
    ∃ s' rest, egit_decref_wrapped vclSample
        [⟨.EGIT_REFERENCE, 1, 10⟩, ⟨.EGIT_REPOSITORY, 1, 20⟩] 10
      = some (s', Event.decref 10 :: freeEvent ⟨.EGIT_REFERENCE, 1, 10⟩
          :: Event.decref 20 :: rest) :=
  egit_decref_free_before_owner vclSample
    [⟨.EGIT_REFERENCE, 1, 10⟩, ⟨.EGIT_REPOSITORY, 1, 20⟩] 10 20
    ⟨.EGIT_REFERENCE, 1, 10⟩ ⟨.EGIT_REPOSITORY, 1, 20⟩
    rfl rfl rfl (by decide) rfl rfl

/-! ### The reachable-state invariant (owner liveness) -/

theorem decrefAux_preserves (vcl : Vcl) :
    ∀ fuel : Nat, ∀ s : Store, ∀ hs : List Ptr, ∀ p : Ptr,
    s.length < fuel → StoreInv vcl s hs →
    (∀ w, lookupPtr s p = some w →
      (countH hs p : Int) + (childPins vcl s p : Int) + 1 ≤ w.refcount) →
    (lookupPtr s p).isSome →
    ∃ s' tr, decrefAux vcl fuel s p = some (s', tr) ∧ StoreInv vcl s' hs ∧
      (∀ r, lookupPtr s r = none → lookupPtr s' r = none) := by
  intro fuel
  induction fuel with
  | zero =>
    intro s hs p hlen
    exact absurd hlen (Nat.not_lt_zero _)
  | succ n ih =>
    intro s hs p hlen hinv hjust hsome
    obtain ⟨hu, hA, hB, hH⟩ := hinv
    cases hw : lookupPtr s p with
    | none =>
      rw [hw] at hsome
      cases hsome
    | some w =>
    have hwptr : w.ptr = p := lookupPtr_ptr hw
    have hwmem : w ∈ s := lookupPtr_mem hw
    have hj := hjust w hw
    by_cases hnz : w.refcount - 1 ≠ 0
    · -- the decrement leaves a nonzero refcount: no free, no removal
      refine ⟨storeSet s p (w.refcount - 1), [Event.decref p], ?_, ⟨?_, ?_, ?_, ?_⟩, ?_⟩
      · simp [decrefAux, hw, hnz]
      · exact keysUnique_storeSet hu
      · intro w' hw'
        rcases mem_storeSet.mp hw' with ⟨w0, hw0, hw0'⟩
        by_cases h0p : w0.ptr = p
        · have heq : lookupPtr s p = some w0 := lookupPtr_unique hu hw0 h0p
          rw [hw] at heq
          cases heq
          rw [if_pos hwptr] at hw0'
          subst hw0'
          show (countH hs w.ptr : Int)
              + (childPins vcl (storeSet s p (w.refcount - 1)) w.ptr : Int)
            ≤ w.refcount - 1
          rw [childPins_storeSet, hwptr]
          omega
        · rw [if_neg h0p] at hw0'
          subst hw0'
          rw [childPins_storeSet]
          exact hA _ hw0
      · intro w' hw' q hq
        rcases ptr_type_of_mem_storeSet hw' with ⟨w0, hw0, hptr0, htype0⟩
        have hq0 : childOwner vcl w0 = some q := by
          rw [childOwner, ← htype0, ← hptr0]
          rw [childOwner] at hq
          exact hq
        rcases hB w0 hw0 q hq0 with ⟨u, hu', hup⟩
        rcases storeSet_image_of_mem (p := p) (v := w.refcount - 1) hu' with
          ⟨u', hu'', hup', _⟩
        exact ⟨u', hu'', hup'.trans hup⟩
      · intro r hr
        rcases hH r hr with ⟨u, hu', hup⟩
        rcases storeSet_image_of_mem (p := p) (v := w.refcount - 1) hu' with
          ⟨u', hu'', hup', _⟩
        exact ⟨u', hu'', hup'.trans hup⟩
      · intro r hr
        by_cases hrp : r = p
        · subst hrp
          rw [hw] at hr
          cases hr
        · rw [lookupPtr_storeSet_ne hrp]
          exact hr
    · -- the refcount reached zero: delete, free, cascade to the owner
      push_neg at hnz
      have hrc1 : w.refcount = 1 := by omega
      have h0 : w.refcount - 1 = 0 := by omega
      have hcH : countH hs p = 0 := by omega
      have hcP : childPins vcl s p = 0 := by omega
      have hw1 : lookupPtr (storeSet s p 0) p = some { w with refcount := 0 } :=
        lookupPtr_storeSet_self hw
      have hu1 : keysUnique (storeSet s p 0) := keysUnique_storeSet hu
      have hu2 : keysUnique (storeRemove (storeSet s p 0) p) :=
        keysUnique_storeRemove hu1
      have hlen2 : (storeRemove (storeSet s p 0) p).length < n := by
        have hsome1 : (lookupPtr (storeSet s p 0) p).isSome := by
          rw [hw1]
          rfl
        have hrem := length_storeRemove hsome1
        rw [length_storeSet] at hrem
        omega
      have hnone2 : lookupPtr (storeRemove (storeSet s p 0) p) p = none :=
        lookupPtr_storeRemove_self hu1
      have hA2 : ∀ w' ∈ storeRemove (storeSet s p 0) p,
          (countH hs w'.ptr : Int)
              + (childPins vcl (storeRemove (storeSet s p 0) p) w'.ptr : Int)
            ≤ w'.refcount := by
        intro w' hw'
        have hne : w'.ptr ≠ p := lookupPtr_eq_none_iff.mp hnone2 w' hw'
        have hw'1 : w' ∈ storeSet s p 0 := mem_of_mem_storeRemove hw'
        rcases mem_storeSet.mp hw'1 with ⟨w0, hw0, hw0'⟩
        have h0p : w0.ptr ≠ p := by
          intro hc
          rw [if_pos hc] at hw0'
          subst hw0'
          exact hne hc
        rw [if_neg h0p] at hw0'
        subst hw0'
        have hpins := childPins_storeRemove vcl hw1 w'.ptr
        rw [childPins_storeSet] at hpins
        have := hA _ hw0
        omega
      have hB2 : ∀ w' ∈ storeRemove (storeSet s p 0) p, ∀ q2,
          childOwner vcl w' = some q2 →
          ∃ u ∈ storeRemove (storeSet s p 0) p, u.ptr = q2 := by
        intro w' hw' q2 hq2
        have hne : w'.ptr ≠ p := lookupPtr_eq_none_iff.mp hnone2 w' hw'
        have hw'1 : w' ∈ storeSet s p 0 := mem_of_mem_storeRemove hw'
        rcases mem_storeSet.mp hw'1 with ⟨w0, hw0, hw0'⟩
        have h0p : w0.ptr ≠ p := by
          intro hc
          rw [if_pos hc] at hw0'
          subst hw0'
          exact hne hc
        rw [if_neg h0p] at hw0'
        subst hw0'
        have hq2p : q2 ≠ p := by
          intro hc
          subst hc
          have := childPins_pos vcl hw0 hq2
          omega
        rcases hB _ hw0 q2 hq2 with ⟨u, hu', hup⟩
        have humem1 : u ∈ storeSet s p 0 :=
          mem_storeSet.mpr ⟨u, hu', by rw [if_neg (by rw [hup]; exact hq2p)]⟩
        have humem2 : u ∈ storeRemove (storeSet s p 0) p :=
          mem_storeRemove_of_ne humem1 (by rw [hup]; exact hq2p)
        exact ⟨u, humem2, hup⟩
      have hH2 : ∀ r, 1 ≤ countH hs r →
          ∃ u ∈ storeRemove (storeSet s p 0) p, u.ptr = r := by
        intro r hr
        rcases hH r hr with ⟨u, hu', hup⟩
        have hrp : r ≠ p := by
          intro hc
          subst hc
          omega
        have humem1 : u ∈ storeSet s p 0 :=
          mem_storeSet.mpr ⟨u, hu', by rw [if_neg (by rw [hup]; exact hrp)]⟩
        exact ⟨u, mem_storeRemove_of_ne humem1 (by rw [hup]; exact hrp), hup⟩
      have hinv2 : StoreInv vcl (storeRemove (storeSet s p 0) p) hs :=
        ⟨hu2, hA2, hB2, hH2⟩
      have hmono2 : ∀ r, lookupPtr s r = none →
          lookupPtr (storeRemove (storeSet s p 0) p) r = none := by
        intro r hr
        by_cases hrp : r = p
        · subst hrp
          exact hnone2
        · rw [lookupPtr_storeRemove_ne hrp, lookupPtr_storeSet_ne hrp]
          exact hr
      have hcascade : ∀ q, childOwner vcl w = some q →
          ∃ s3 tr3, decrefAux vcl n (storeRemove (storeSet s p 0) p) q
              = some (s3, tr3) ∧ StoreInv vcl s3 hs ∧
            (∀ r, lookupPtr (storeRemove (storeSet s p 0) p) r = none →
              lookupPtr s3 r = none) := by
        intro q hq
        have hqp : q ≠ p := by
          intro hc
          subst hc
          have := childPins_pos vcl hwmem hq
          omega
        rcases hB w hwmem q hq with ⟨u, hu', hup⟩
        have humem1 : u ∈ storeSet s p 0 :=
          mem_storeSet.mpr ⟨u, hu', by rw [if_neg (by rw [hup]; exact hqp)]⟩
        have humem2 : u ∈ storeRemove (storeSet s p 0) p :=
          mem_storeRemove_of_ne humem1 (by rw [hup]; exact hqp)
        have hlk : lookupPtr (storeRemove (storeSet s p 0) p) q = some u :=
          lookupPtr_unique hu2 humem2 hup
        have hjust2 : ∀ u', lookupPtr (storeRemove (storeSet s p 0) p) q = some u' →
            (countH hs q : Int)
                + (childPins vcl (storeRemove (storeSet s p 0) p) q : Int) + 1
              ≤ u'.refcount := by
          intro u' hu'eq
          rw [hlk] at hu'eq
          cases hu'eq
          have hpins := childPins_storeRemove vcl hw1 q
          rw [childPins_storeSet] at hpins
          rw [if_pos (by rw [childOwner_refcount]; exact hq)] at hpins
          have := hA u hu'
          rw [hup] at this
          omega
        exact ih (storeRemove (storeSet s p 0) p) hs q hlen2 hinv2 hjust2
          (by rw [hlk]; rfl)
      cases hty : w.type with
      | EGIT_REPOSITORY =>
        refine ⟨storeRemove (storeSet s p 0) p,
          [Event.decref p, Event.repositoryFree p], ?_, hinv2, hmono2⟩
        simp [decrefAux, hw, h0, hty]
      | EGIT_UNKNOWN =>
        refine ⟨storeRemove (storeSet s p 0) p, [Event.decref p], ?_, hinv2, hmono2⟩
        simp [decrefAux, hw, h0, hty]
      | EGIT_COMMIT =>
        have hq : childOwner vcl w = some (vcl.objectOwner p) := by
          rw [childOwner, hty, hwptr]
          rfl
        rcases hcascade (vcl.objectOwner p) hq with ⟨s3, tr3, heq3, hinv3, hmono3⟩
        refine ⟨s3, Event.decref p :: Event.objectFree p :: tr3, ?_, hinv3, ?_⟩
        · simp [decrefAux, hw, h0, hty, heq3]
        · intro r hr
          exact hmono3 r (hmono2 r hr)
      | EGIT_TREE =>
        have hq : childOwner vcl w = some (vcl.objectOwner p) := by
          rw [childOwner, hty, hwptr]
          rfl
        rcases hcascade (vcl.objectOwner p) hq with ⟨s3, tr3, heq3, hinv3, hmono3⟩
        refine ⟨s3, Event.decref p :: Event.objectFree p :: tr3, ?_, hinv3, ?_⟩
        · simp [decrefAux, hw, h0, hty, heq3]
        · intro r hr
          exact hmono3 r (hmono2 r hr)
      | EGIT_BLOB =>
        have hq : childOwner vcl w = some (vcl.objectOwner p) := by
          rw [childOwner, hty, hwptr]
          rfl
        rcases hcascade (vcl.objectOwner p) hq with ⟨s3, tr3, heq3, hinv3, hmono3⟩
        refine ⟨s3, Event.decref p :: Event.objectFree p :: tr3, ?_, hinv3, ?_⟩
        · simp [decrefAux, hw, h0, hty, heq3]
        · intro r hr
          exact hmono3 r (hmono2 r hr)
      | EGIT_TAG =>
        have hq : childOwner vcl w = some (vcl.objectOwner p) := by
          rw [childOwner, hty, hwptr]
          rfl
        rcases hcascade (vcl.objectOwner p) hq with ⟨s3, tr3, heq3, hinv3, hmono3⟩
        refine ⟨s3, Event.decref p :: Event.objectFree p :: tr3, ?_, hinv3, ?_⟩
        · simp [decrefAux, hw, h0, hty, heq3]
        · intro r hr
          exact hmono3 r (hmono2 r hr)
      | EGIT_OBJECT =>
        have hq : childOwner vcl w = some (vcl.objectOwner p) := by
          rw [childOwner, hty, hwptr]
          rfl
        rcases hcascade (vcl.objectOwner p) hq with ⟨s3, tr3, heq3, hinv3, hmono3⟩
        refine ⟨s3, Event.decref p :: Event.objectFree p :: tr3, ?_, hinv3, ?_⟩
        · simp [decrefAux, hw, h0, hty, heq3]
        · intro r hr
          exact hmono3 r (hmono2 r hr)
      | EGIT_REFERENCE =>
        have hq : childOwner vcl w = some (vcl.referenceOwner p) := by
          rw [childOwner, hty, hwptr]
          rfl
        rcases hcascade (vcl.referenceOwner p) hq with ⟨s3, tr3, heq3, hinv3, hmono3⟩
        refine ⟨s3, Event.decref p :: Event.referenceFree p :: tr3, ?_, hinv3, ?_⟩
        · simp [decrefAux, hw, h0, hty, heq3]
        · intro r hr
          exact hmono3 r (hmono2 r hr)

theorem decrefAux_free_removed (vcl : Vcl) :
    ∀ fuel : Nat, ∀ s : Store, ∀ p : Ptr, ∀ s' : Store, ∀ tr : List Event,
    keysUnique s → decrefAux vcl fuel s p = some (s', tr) →
    (∀ r, lookupPtr s r = none → lookupPtr s' r = none) ∧
    (∀ e ∈ tr, ∀ q, isFreeOf e q = true → lookupPtr s' q = none) := by
  intro fuel
  induction fuel with
  | zero =>
    intro s p s' tr hu h
    simp [decrefAux] at h
  | succ n ih =>
    intro s p s' tr hu h
    cases hw : lookupPtr s p with
    | none => simp [decrefAux, hw] at h
    | some w =>
    have hwptr : w.ptr = p := lookupPtr_ptr hw
    by_cases hnz : w.refcount - 1 ≠ 0
    · simp only [decrefAux, hw, if_pos hnz, Option.some.injEq, Prod.mk.injEq] at h
      obtain ⟨hs', htr⟩ := h
      subst hs'
      subst htr
      constructor
      · intro r hr
        by_cases hrp : r = p
        · subst hrp
          rw [hw] at hr
          cases hr
        · rw [lookupPtr_storeSet_ne hrp]
          exact hr
      · intro e he q hfq
        rw [List.mem_singleton] at he
        subst he
        simp [isFreeOf] at hfq
    · push_neg at hnz
      have hu1 : keysUnique (storeSet s p 0) := keysUnique_storeSet hu
      have hu2 : keysUnique (storeRemove (storeSet s p 0) p) :=
        keysUnique_storeRemove hu1
      have hnone2 : lookupPtr (storeRemove (storeSet s p 0) p) p = none :=
        lookupPtr_storeRemove_self hu1
      have hmono2 : ∀ r, lookupPtr s r = none →
          lookupPtr (storeRemove (storeSet s p 0) p) r = none := by
        intro r hr
        by_cases hrp : r = p
        · subst hrp
          exact hnone2
        · rw [lookupPtr_storeRemove_ne hrp, lookupPtr_storeSet_ne hrp]
          exact hr
      have hcommon : ∀ own : Ptr, ∀ fe : Ptr → Event,
          (∀ q, isFreeOf (fe p) q = true → q = p) →
          ∀ s3 : Store, ∀ tr3 : List Event,
          decrefAux vcl n (storeRemove (storeSet s p 0) p) own = some (s3, tr3) →
          (∀ r, lookupPtr s r = none → lookupPtr s3 r = none) ∧
          (∀ e ∈ Event.decref p :: fe p :: tr3, ∀ q,
            isFreeOf e q = true → lookupPtr s3 q = none) := by
        intro own fe hfe s3 tr3 hrec
        rcases ih _ _ _ _ hu2 hrec with ⟨mono3, free3⟩
        constructor
        · intro r hr
          exact mono3 r (hmono2 r hr)
        · intro e he q hfq
          rcases List.mem_cons.mp he with rfl | he
          · simp [isFreeOf] at hfq
          rcases List.mem_cons.mp he with rfl | he
          · have hqp : q = p := hfe q hfq
            subst hqp
            exact mono3 q hnone2
          · exact free3 e he q hfq
      cases hty : w.type with
      | EGIT_REPOSITORY =>
        simp [decrefAux, hw, hnz, hty] at h
        obtain ⟨hs', htr⟩ := h
        subst hs'
        subst htr
        constructor
        · exact hmono2
        · intro e he q hfq
          rcases List.mem_cons.mp he with rfl | he
          · simp [isFreeOf] at hfq
          rw [List.mem_singleton] at he
          subst he
          simp only [isFreeOf, decide_eq_true_eq] at hfq
          subst hfq
          exact hnone2
      | EGIT_UNKNOWN =>
        simp [decrefAux, hw, hnz, hty] at h
        obtain ⟨hs', htr⟩ := h
        subst hs'
        subst htr
        constructor
        · exact hmono2
        · intro e he q hfq
          rw [List.mem_singleton] at he
          subst he
          simp [isFreeOf] at hfq
      | EGIT_COMMIT =>
        simp [decrefAux, hw, hnz, hty] at h
        cases hrec : decrefAux vcl n (storeRemove (storeSet s p 0) p)
            (vcl.objectOwner p) with
        | none => rw [hrec] at h; cases h
        | some pr =>
          rcases pr with ⟨s3, tr3⟩
          rw [hrec] at h
          simp only [Option.some.injEq, Prod.mk.injEq] at h
          obtain ⟨hs', htr⟩ := h
          subst hs'
          subst htr
          exact hcommon (vcl.objectOwner p) Event.objectFree
            (by
              intro q hfq
              have hpq : p = q := by simpa [isFreeOf, decide_eq_true_eq] using hfq
              exact hpq.symm)
            s3 tr3 hrec
      | EGIT_TREE =>
        simp [decrefAux, hw, hnz, hty] at h
        cases hrec : decrefAux vcl n (storeRemove (storeSet s p 0) p)
            (vcl.objectOwner p) with
        | none => rw [hrec] at h; cases h
        | some pr =>
          rcases pr with ⟨s3, tr3⟩
          rw [hrec] at h
          simp only [Option.some.injEq, Prod.mk.injEq] at h
          obtain ⟨hs', htr⟩ := h
          subst hs'
          subst htr
          exact hcommon (vcl.objectOwner p) Event.objectFree
            (by
              intro q hfq
              have hpq : p = q := by simpa [isFreeOf, decide_eq_true_eq] using hfq
              exact hpq.symm)
            s3 tr3 hrec
      | EGIT_BLOB =>
        simp [decrefAux, hw, hnz, hty] at h
        cases hrec : decrefAux vcl n (storeRemove (storeSet s p 0) p)
            (vcl.objectOwner p) with
        | none => rw [hrec] at h; cases h
        | some pr =>
          rcases pr with ⟨s3, tr3⟩
          rw [hrec] at h
          simp only [Option.some.injEq, Prod.mk.injEq] at h
          obtain ⟨hs', htr⟩ := h
          subst hs'
          subst htr
          exact hcommon (vcl.objectOwner p) Event.objectFree
            (by
              intro q hfq
              have hpq : p = q := by simpa [isFreeOf, decide_eq_true_eq] using hfq
              exact hpq.symm)
            s3 tr3 hrec
      | EGIT_TAG =>
        simp [decrefAux, hw, hnz, hty] at h
        cases hrec : decrefAux vcl n (storeRemove (storeSet s p 0) p)
            (vcl.objectOwner p) with
        | none => rw [hrec] at h; cases h
        | some pr =>
          rcases pr with ⟨s3, tr3⟩
          rw [hrec] at h
          simp only [Option.some.injEq, Prod.mk.injEq] at h
          obtain ⟨hs', htr⟩ := h
          subst hs'
          subst htr
          exact hcommon (vcl.objectOwner p) Event.objectFree
            (by
              intro q hfq
              have hpq : p = q := by simpa [isFreeOf, decide_eq_true_eq] using hfq
              exact hpq.symm)
            s3 tr3 hrec
      | EGIT_OBJECT =>
        simp [decrefAux, hw, hnz, hty] at h
        cases hrec : decrefAux vcl n (storeRemove (storeSet s p 0) p)
            (vcl.objectOwner p) with
        | none => rw [hrec] at h; cases h
        | some pr =>
          rcases pr with ⟨s3, tr3⟩
          rw [hrec] at h
          simp only [Option.some.injEq, Prod.mk.injEq] at h
          obtain ⟨hs', htr⟩ := h
          subst hs'
          subst htr
          exact hcommon (vcl.objectOwner p) Event.objectFree
            (by
              intro q hfq
              have hpq : p = q := by simpa [isFreeOf, decide_eq_true_eq] using hfq
              exact hpq.symm)
            s3 tr3 hrec
      | EGIT_REFERENCE =>
        simp [decrefAux, hw, hnz, hty] at h
        cases hrec : decrefAux vcl n (storeRemove (storeSet s p 0) p)
            (vcl.referenceOwner p) with
        | none => rw [hrec] at h; cases h
        | some pr =>
          rcases pr with ⟨s3, tr3⟩
          rw [hrec] at h
          simp only [Option.some.injEq, Prod.mk.injEq] at h
          obtain ⟨hs', htr⟩ := h
          subst hs'
          subst htr
          exact hcommon (vcl.referenceOwner p) Event.referenceFree
            (by
              intro q hfq
              have hpq : p = q := by simpa [isFreeOf, decide_eq_true_eq] using hfq
              exact hpq.symm)
            s3 tr3 hrec

theorem entry_exists_storeSet {s : Store} {r p : Ptr} {v : Int}
    (h : ∃ u ∈ s, u.ptr = r) : ∃ u ∈ storeSet s p v, u.ptr = r := by
  rcases h with ⟨u, hu, hup⟩
  rcases storeSet_image_of_mem (p := p) (v := v) hu with ⟨u', hu', hup', _⟩
  exact ⟨u', hu', hup'.trans hup⟩

theorem invB_storeSet (vcl : Vcl) {s : Store} {p : Ptr} {rc : Int}
    (hB : ∀ w ∈ s, ∀ q, childOwner vcl w = some q → ∃ u ∈ s, u.ptr = q) :
    ∀ w' ∈ storeSet s p rc, ∀ q, childOwner vcl w' = some q →
      ∃ u ∈ storeSet s p rc, u.ptr = q := by
  intro w' hw' q hq
  rcases ptr_type_of_mem_storeSet hw' with ⟨w0, hw0, hptr0, htype0⟩
  have hq0 : childOwner vcl w0 = some q := by
    rw [childOwner, ← htype0, ← hptr0]
    rw [childOwner] at hq
    exact hq
  exact entry_exists_storeSet (hB w0 hw0 q hq0)

theorem countH_cons_self (p : Ptr) (hs : List Ptr) :
    countH (p :: hs) p = countH hs p + 1 := by
  rw [countH, if_pos rfl]
  omega

theorem countH_cons_ne {p r : Ptr} (hs : List Ptr) (h : p ≠ r) :
    countH (p :: hs) r = countH hs r := by
  rw [countH, if_neg h]
  omega

theorem egit_wrap_preserves (vcl : Vcl) (ty : EgitType) (s : Store)
    (hs : List Ptr) (p : Ptr) (hinv : StoreInv vcl s hs) :
    StoreInv vcl (egit_wrap vcl ty s p).1 (p :: hs) := by
  obtain ⟨hu, hA, hB, hH⟩ := hinv
  have hHzero : ∀ r, lookupPtr s r = none → countH hs r = 0 := by
    intro r hrn
    by_contra hcz
    rcases hH r (by omega) with ⟨u, hu', hup⟩
    have hws := lookupPtr_isSome_of_mem hu' hup
    rw [hrn] at hws
    cases hws
  have hPzero : ∀ r, lookupPtr s r = none → childPins vcl s r = 0 := by
    intro r hrn
    by_contra hcz
    have h1 : 1 ≤ childPins vcl s r := by omega
    rcases exists_of_childPins_pos vcl h1 with ⟨w0, hw0, hw0'⟩
    rcases hB w0 hw0 r hw0' with ⟨u, hu', hup⟩
    have hws := lookupPtr_isSome_of_mem hu' hup
    rw [hrn] at hws
    cases hws
  cases howner : wrapOwner vcl
      (if ty = .EGIT_OBJECT then refineObjectType (vcl.objectType p) else ty) p with
  | none =>
    rw [egit_wrap_owner_none howner]
    generalize hITY : (if ty = .EGIT_OBJECT then refineObjectType (vcl.objectType p)
        else ty) = ty1 at howner
    cases hlp : lookupPtr s p with
    | some w =>
      have hwmem := lookupPtr_mem hlp
      have hwptr := lookupPtr_ptr hlp
      have hApt := hA w hwmem
      rw [hwptr] at hApt
      simp only [egit_incref, hlp]
      refine ⟨keysUnique_storeSet hu, ?_, invB_storeSet vcl hB, ?_⟩
      · intro w' hw'
        rcases mem_storeSet.mp hw' with ⟨w0, hw0, rfl⟩
        by_cases h0p : w0.ptr = p
        · have h00 : w0 = w :=
            Option.some.inj ((lookupPtr_unique hu hw0 h0p).symm.trans hlp)
          subst h00
          rw [if_pos h0p]
          show (countH (p :: hs) w0.ptr : Int)
              + (childPins vcl (storeSet s p (w0.refcount + 1)) w0.ptr : Int)
            ≤ w0.refcount + 1
          rw [childPins_storeSet, hwptr, countH_cons_self]
          omega
        · rw [if_neg h0p]
          rw [childPins_storeSet, countH_cons_ne _ (fun hh => h0p hh.symm)]
          exact hA _ hw0
      · intro r hr
        by_cases hrp : r = p
        · subst hrp
          exact entry_exists_storeSet ⟨w, hwmem, hwptr⟩
        · rw [countH_cons_ne _ (fun hh => hrp hh.symm)] at hr
          exact entry_exists_storeSet (hH r hr)
    | none =>
      have hH0 := hHzero p hlp
      have hP0 := hPzero p hlp
      simp only [egit_incref, hlp]
      have hco : childOwner vcl ⟨ty1, 1, p⟩ = none := howner
      refine ⟨keysUnique_append_single hu hlp, ?_, ?_, ?_⟩
      · intro w' hw'
        rcases List.mem_append.mp hw' with hw0 | hnew
        · have h0p : w'.ptr ≠ p := lookupPtr_eq_none_iff.mp hlp w' hw0
          rw [childPins_append_single, hco, if_neg (by simp),
            countH_cons_ne _ (fun hh => h0p hh.symm)]
          have := hA _ hw0
          omega
        · rw [List.mem_singleton] at hnew
          subst hnew
          show (countH (p :: hs) p : Int)
              + (childPins vcl (s ++ [⟨ty1, 1, p⟩]) p : Int) ≤ 1
          rw [childPins_append_single, hco, if_neg (by simp),
            countH_cons_self, hH0, hP0]
          omega
      · intro w' hw' q hq
        rcases List.mem_append.mp hw' with hw0 | hnew
        · rcases hB _ hw0 q hq with ⟨u, hu', hup⟩
          exact ⟨u, List.mem_append_left _ hu', hup⟩
        · rw [List.mem_singleton] at hnew
          subst hnew
          rw [hco] at hq
          cases hq
      · intro r hr
        by_cases hrp : r = p
        · subst hrp
          exact ⟨⟨ty1, 1, r⟩, List.mem_append_right _ (List.mem_singleton_self _), rfl⟩
        · rw [countH_cons_ne _ (fun hh => hrp hh.symm)] at hr
          rcases hH r hr with ⟨u, hu', hup⟩
          exact ⟨u, List.mem_append_left _ hu', hup⟩
  | some q =>
    rw [egit_wrap_owner_some howner]
    generalize hITY : (if ty = .EGIT_OBJECT then refineObjectType (vcl.objectType p)
        else ty) = ty1 at howner
    cases hlp : lookupPtr s p with
    | some w =>
      have hwmem := lookupPtr_mem hlp
      have hwptr := lookupPtr_ptr hlp
      have hApt := hA w hwmem
      rw [hwptr] at hApt
      simp only [egit_incref, hlp]
      cases hlq : lookupPtr (storeSet s p (w.refcount + 1)) q with
      | some u =>
        simp only [egit_incref, hlq]
        refine ⟨keysUnique_storeSet (keysUnique_storeSet hu), ?_,
          invB_storeSet vcl (invB_storeSet vcl hB), ?_⟩
        · intro w' hw'
          rcases mem_storeSet.mp hw' with ⟨w1, hw1, rfl⟩
          rcases mem_storeSet.mp hw1 with ⟨w0, hw0, rfl⟩
          by_cases h0p : w0.ptr = p
          · have h00 : w0 = w :=
              Option.some.inj ((lookupPtr_unique hu hw0 h0p).symm.trans hlp)
            subst h00
            rw [if_pos h0p]
            by_cases hpq : p = q
            · have h1q : ({ w0 with refcount := w0.refcount + 1 } : EgitObject).ptr = q := by
                show w0.ptr = q
                rw [h0p, hpq]
              rw [if_pos h1q]
              have hueq : lookupPtr (storeSet s p (w0.refcount + 1)) q
                  = some { w0 with refcount := w0.refcount + 1 } := by
                rw [← hpq]
                exact lookupPtr_storeSet_self hlp
              rw [hlq] at hueq
              have hu0 : u = { w0 with refcount := w0.refcount + 1 } :=
                Option.some.inj hueq
              subst hu0
              show (countH (p :: hs) w0.ptr : Int)
                  + (childPins vcl (storeSet (storeSet s p (w0.refcount + 1)) q
                      (w0.refcount + 1 + 1)) w0.ptr : Int)
                ≤ w0.refcount + 1 + 1
              rw [childPins_storeSet, childPins_storeSet, hwptr, countH_cons_self]
              omega
            · have h1q : ({ w0 with refcount := w0.refcount + 1 } : EgitObject).ptr ≠ q := by
                show w0.ptr ≠ q
                rw [h0p]
                exact hpq
              rw [if_neg h1q]
              show (countH (p :: hs) w0.ptr : Int)
                  + (childPins vcl (storeSet (storeSet s p (w0.refcount + 1)) q
                      (u.refcount + 1)) w0.ptr : Int)
                ≤ w0.refcount + 1
              rw [childPins_storeSet, childPins_storeSet, hwptr, countH_cons_self]
              omega
          · rw [if_neg h0p]
            by_cases h0q : w0.ptr = q
            · have humem1 : w0 ∈ storeSet s p (w.refcount + 1) :=
                mem_storeSet.mpr ⟨w0, hw0, by rw [if_neg h0p]⟩
              have hueq : lookupPtr (storeSet s p (w.refcount + 1)) q = some w0 :=
                lookupPtr_unique (keysUnique_storeSet hu) humem1 h0q
              rw [hlq] at hueq
              have hu0 : u = w0 := Option.some.inj hueq
              subst hu0
              rw [if_pos h0q]
              show (countH (p :: hs) u.ptr : Int)
                  + (childPins vcl (storeSet (storeSet s p (w.refcount + 1)) q
                      (u.refcount + 1)) u.ptr : Int)
                ≤ u.refcount + 1
              rw [childPins_storeSet, childPins_storeSet,
                countH_cons_ne _ (fun hh => h0p (hh.symm))]
              have := hA _ hw0
              omega
            · rw [if_neg h0q]
              rw [childPins_storeSet, childPins_storeSet,
                countH_cons_ne _ (fun hh => h0p hh.symm)]
              exact hA _ hw0
        · intro r hr
          by_cases hrp : r = p
          · subst hrp
            exact entry_exists_storeSet (entry_exists_storeSet ⟨w, hwmem, hwptr⟩)
          · rw [countH_cons_ne _ (fun hh => hrp hh.symm)] at hr
            exact entry_exists_storeSet (entry_exists_storeSet (hH r hr))
      | none =>
        simp only [egit_incref, hlq]
        have hqp : q ≠ p := by
          intro hc
          subst hc
          rw [lookupPtr_storeSet_self hlp] at hlq
          cases hlq
        have hsq : lookupPtr s q = none := by
          rw [← lookupPtr_storeSet_ne (s := s) (v := w.refcount + 1) hqp]
          exact hlq
        have hHq0 := hHzero q hsq
        have hPq0 := hPzero q hsq
        have hcoRepo : childOwner vcl ⟨.EGIT_REPOSITORY, 1, q⟩ = none := rfl
        refine ⟨keysUnique_append_single (keysUnique_storeSet hu) hlq, ?_, ?_, ?_⟩
        · intro w' hw'
          rcases List.mem_append.mp hw' with hw1 | hnew
          · rcases mem_storeSet.mp hw1 with ⟨w0, hw0, rfl⟩
            by_cases h0p : w0.ptr = p
            · have h00 : w0 = w :=
                Option.some.inj ((lookupPtr_unique hu hw0 h0p).symm.trans hlp)
              subst h00
              rw [if_pos h0p]
              show (countH (p :: hs) w0.ptr : Int)
                  + (childPins vcl (storeSet s p (w0.refcount + 1)
                      ++ [⟨.EGIT_REPOSITORY, 1, q⟩]) w0.ptr : Int)
                ≤ w0.refcount + 1
              rw [childPins_append_single, hcoRepo, if_neg (by simp),
                childPins_storeSet, hwptr, countH_cons_self]
              omega
            · rw [if_neg h0p]
              rw [childPins_append_single, hcoRepo, if_neg (by simp),
                childPins_storeSet, countH_cons_ne _ (fun hh => h0p hh.symm)]
              have := hA _ hw0
              omega
          · rw [List.mem_singleton] at hnew
            subst hnew
            show (countH (p :: hs) q : Int)
                + (childPins vcl (storeSet s p (w.refcount + 1)
                    ++ [⟨.EGIT_REPOSITORY, 1, q⟩]) q : Int)
              ≤ 1
            rw [childPins_append_single, hcoRepo, if_neg (by simp),
              childPins_storeSet, countH_cons_ne _ (fun hh => hqp hh.symm), hHq0, hPq0]
            omega
        · intro w' hw' r hr
          rcases List.mem_append.mp hw' with hw1 | hnew
          · rcases ptr_type_of_mem_storeSet hw1 with ⟨w0, hw0, hptr0, htype0⟩
            have hr0 : childOwner vcl w0 = some r := by
              rw [childOwner, ← htype0, ← hptr0]
              rw [childOwner] at hr
              exact hr
            rcases hB w0 hw0 r hr0 with ⟨u, hu', hup⟩
            rcases entry_exists_storeSet (p := p) (v := w.refcount + 1)
              ⟨u, hu', hup⟩ with ⟨u', hu'', hup'⟩
            exact ⟨u', List.mem_append_left _ hu'', hup'⟩
          · rw [List.mem_singleton] at hnew
            subst hnew
            rw [hcoRepo] at hr
            cases hr
        · intro r hr
          by_cases hrp : r = p
          · subst hrp
            rcases entry_exists_storeSet (p := r) (v := w.refcount + 1)
              ⟨w, hwmem, hwptr⟩ with ⟨u', hu'', hup'⟩
            exact ⟨u', List.mem_append_left _ hu'', hup'⟩
          · rw [countH_cons_ne _ (fun hh => hrp hh.symm)] at hr
            rcases entry_exists_storeSet (p := p) (v := w.refcount + 1)
              (hH r hr) with ⟨u', hu'', hup'⟩
            exact ⟨u', List.mem_append_left _ hu'', hup'⟩
    | none =>
      have hH0 := hHzero p hlp
      have hP0 := hPzero p hlp
      have hconew : childOwner vcl ⟨ty1, 1, p⟩ = some q := howner
      have hnomem : ∀ w0 ∈ s, w0.ptr ≠ p := lookupPtr_eq_none_iff.mp hlp
      have hnewmem : lookupPtr (s ++ [⟨ty1, 1, p⟩]) p = some ⟨ty1, 1, p⟩ := by
        rw [lookupPtr_append_single hlp]
        simp
      have hu1 : keysUnique (s ++ [⟨ty1, 1, p⟩]) := keysUnique_append_single hu hlp
      simp only [egit_incref, hlp]
      cases hlq : lookupPtr (s ++ [⟨ty1, 1, p⟩]) q with
      | some u =>
        simp only [egit_incref, hlq]
        have humem := lookupPtr_mem hlq
        have huptr := lookupPtr_ptr hlq
        refine ⟨keysUnique_storeSet hu1, ?_, ?_, ?_⟩
        · intro w' hw'
          rcases mem_storeSet.mp hw' with ⟨w1, hw1, rfl⟩
          rcases List.mem_append.mp hw1 with hw0 | hnew
          · have h1p : w1.ptr ≠ p := hnomem w1 hw0
            by_cases h1q : w1.ptr = q
            · have hueq : lookupPtr (s ++ [⟨ty1, 1, p⟩]) q = some w1 :=
                lookupPtr_unique hu1 (List.mem_append_left _ hw0) h1q
              rw [hlq] at hueq
              have hu0 : u = w1 := Option.some.inj hueq
              subst hu0
              rw [if_pos h1q]
              show (countH (p :: hs) u.ptr : Int)
                  + (childPins vcl (storeSet (s ++ [⟨ty1, 1, p⟩]) q
                      (u.refcount + 1)) u.ptr : Int)
                ≤ u.refcount + 1
              rw [childPins_storeSet, childPins_append_single, hconew, h1q,
                if_pos rfl, countH_cons_ne _ (fun hh => h1p (h1q ▸ hh.symm))]
              have := hA _ hw0
              rw [h1q] at this
              omega
            · rw [if_neg h1q]
              rw [childPins_storeSet, childPins_append_single, hconew,
                if_neg (by simp [h1q]; exact fun hh => h1q hh.symm),
                countH_cons_ne _ (fun hh => h1p hh.symm)]
              have := hA _ hw0
              omega
          · rw [List.mem_singleton] at hnew
            subst hnew
            by_cases hpq : p = q
            · have h1q : (⟨ty1, 1, p⟩ : EgitObject).ptr = q := hpq
              rw [if_pos h1q]
              have hueq : lookupPtr (s ++ [⟨ty1, 1, p⟩]) q = some ⟨ty1, 1, p⟩ := by
                rw [← hpq]
                exact hnewmem
              rw [hlq] at hueq
              have hu0 : u = ⟨ty1, 1, p⟩ := Option.some.inj hueq
              subst hu0
              show (countH (p :: hs) p : Int)
                  + (childPins vcl (storeSet (s ++ [⟨ty1, 1, p⟩]) q 2) p : Int)
                ≤ 2
              rw [childPins_storeSet, childPins_append_single, hconew,
                if_pos (by rw [hpq]), countH_cons_self, hH0, hP0]
              omega
            · have h1q : (⟨ty1, 1, p⟩ : EgitObject).ptr ≠ q := hpq
              rw [if_neg h1q]
              show (countH (p :: hs) p : Int)
                  + (childPins vcl (storeSet (s ++ [⟨ty1, 1, p⟩]) q
                      (u.refcount + 1)) p : Int)
                ≤ 1
              rw [childPins_storeSet, childPins_append_single, hconew,
                if_neg (by simp; exact fun hh => hpq hh.symm),
                countH_cons_self, hH0, hP0]
              omega
        · intro w' hw' r hr
          rcases ptr_type_of_mem_storeSet hw' with ⟨w1, hw1, hptr1, htype1⟩
          have hr1 : childOwner vcl w1 = some r := by
            rw [childOwner, ← htype1, ← hptr1]
            rw [childOwner] at hr
            exact hr
          rcases List.mem_append.mp hw1 with hw0 | hnew
          · rcases hB _ hw0 r hr1 with ⟨u2, hu2', hup2⟩
            exact entry_exists_storeSet ⟨u2, List.mem_append_left _ hu2', hup2⟩
          · rw [List.mem_singleton] at hnew
            subst hnew
            rw [hconew] at hr1
            have hrq : r = q := (Option.some.inj hr1).symm
            subst hrq
            exact entry_exists_storeSet ⟨u, humem, huptr⟩
        · intro r hr
          by_cases hrp : r = p
          · subst hrp
            exact entry_exists_storeSet ⟨⟨ty1, 1, r⟩,
              List.mem_append_right _ (List.mem_singleton_self _), rfl⟩
          · rw [countH_cons_ne _ (fun hh => hrp hh.symm)] at hr
            rcases hH r hr with ⟨u2, hu2', hup2⟩
            exact entry_exists_storeSet ⟨u2, List.mem_append_left _ hu2', hup2⟩
      | none =>
        simp only [egit_incref, hlq]
        have hqp : q ≠ p := by
          intro hc
          subst hc
          rw [hnewmem] at hlq
          cases hlq
        have hsq : lookupPtr s q = none := by
          rw [lookupPtr_eq_none_iff]
          intro w0 hw0 hw0q
          exact lookupPtr_eq_none_iff.mp hlq w0 (List.mem_append_left _ hw0) hw0q
        have hHq0 := hHzero q hsq
        have hPq0 := hPzero q hsq
        have hcoRepo : childOwner vcl ⟨.EGIT_REPOSITORY, 1, q⟩ = none := rfl
        refine ⟨keysUnique_append_single hu1 hlq, ?_, ?_, ?_⟩
        · intro w' hw'
          rcases List.mem_append.mp hw' with hw1 | hnew2
          · rcases List.mem_append.mp hw1 with hw0 | hnew
            · have h1p : w'.ptr ≠ p := hnomem w' hw0
              have h1q : w'.ptr ≠ q := by
                intro hc
                exact (lookupPtr_eq_none_iff.mp hsq w' hw0) hc
              rw [childPins_append_single, hcoRepo, if_neg (by simp),
                childPins_append_single, hconew,
                if_neg (by simp; exact fun hh => h1q hh.symm),
                countH_cons_ne _ (fun hh => h1p hh.symm)]
              have := hA _ hw0
              omega
            · rw [List.mem_singleton] at hnew
              subst hnew
              show (countH (p :: hs) p : Int)
                  + (childPins vcl ((s ++ [⟨ty1, 1, p⟩])
                      ++ [⟨.EGIT_REPOSITORY, 1, q⟩]) p : Int)
                ≤ 1
              rw [childPins_append_single, hcoRepo, if_neg (by simp),
                childPins_append_single, hconew,
                if_neg (by simp; exact fun hh => hqp hh),
                countH_cons_self, hH0, hP0]
              omega
          · rw [List.mem_singleton] at hnew2
            subst hnew2
            show (countH (p :: hs) q : Int)
                + (childPins vcl ((s ++ [⟨ty1, 1, p⟩])
                    ++ [⟨.EGIT_REPOSITORY, 1, q⟩]) q : Int)
              ≤ 1
            rw [childPins_append_single, hcoRepo, if_neg (by simp),
              childPins_append_single, hconew, if_pos rfl,
              countH_cons_ne _ (fun hh => hqp hh.symm), hHq0, hPq0]
            omega
        · intro w' hw' r hr
          rcases List.mem_append.mp hw' with hw1 | hnew2
          · rcases List.mem_append.mp hw1 with hw0 | hnew
            · rcases hB _ hw0 r hr with ⟨u2, hu2', hup2⟩
              exact ⟨u2, List.mem_append_left _ (List.mem_append_left _ hu2'), hup2⟩
            · rw [List.mem_singleton] at hnew
              subst hnew
              rw [hconew] at hr
              have hrq : r = q := (Option.some.inj hr).symm
              subst hrq
              exact ⟨⟨.EGIT_REPOSITORY, 1, r⟩,
                List.mem_append_right _ (List.mem_singleton_self _), rfl⟩
          · rw [List.mem_singleton] at hnew2
            subst hnew2
            rw [hcoRepo] at hr
            cases hr
        · intro r hr
          by_cases hrp : r = p
          · subst hrp
            exact ⟨⟨ty1, 1, r⟩,
              List.mem_append_left _ (List.mem_append_right _ (List.mem_singleton_self _)), rfl⟩
          · rw [countH_cons_ne _ (fun hh => hrp hh.symm)] at hr
            rcases hH r hr with ⟨u2, hu2', hup2⟩
            exact ⟨u2, List.mem_append_left _ (List.mem_append_left _ hu2'), hup2⟩

theorem reachable_inv (vcl : Vcl) (st : HostState) (h : Reachable vcl st) :
    StoreInv vcl st.store st.handles := by
  induction h with
  | init =>
    refine ⟨List.Pairwise.nil, ?_, ?_, ?_⟩
    · intro w hw
      cases hw
    · intro w hw
      cases hw
    · intro r hr
      simp [countH] at hr
  | wrap st ty p h ih =>
    exact egit_wrap_preserves vcl ty st.store st.handles p ih
  | release st p s' tr h hp heq ih =>
    obtain ⟨hu, hA, hB, hH⟩ := ih
    have hAe : ∀ w ∈ st.store, (countH (eraseH st.handles p) w.ptr : Int)
        + (childPins vcl st.store w.ptr : Int) ≤ w.refcount := by
      intro w hw
      have h1 := hA w hw
      have h2 := countH_eraseH_le st.handles p w.ptr
      omega
    have hHe : ∀ r, 1 ≤ countH (eraseH st.handles p) r →
        ∃ w ∈ st.store, w.ptr = r := by
      intro r hr
      have h2 := countH_eraseH_le st.handles p r
      exact hH r (by omega)
    rcases hH p hp with ⟨w, hwmem, hwptr⟩
    have hlk : lookupPtr st.store p = some w := lookupPtr_unique hu hwmem hwptr
    have hjust : ∀ w', lookupPtr st.store p = some w' →
        (countH (eraseH st.handles p) p : Int)
          + (childPins vcl st.store p : Int) + 1 ≤ w'.refcount := by
      intro w' hw'
      rw [hlk] at hw'
      cases hw'
      have h1 := hA w hwmem
      rw [hwptr] at h1
      have h2 := countH_eraseH_self hp
      omega
    rcases decrefAux_preserves vcl (st.store.length + 1) st.store
        (eraseH st.handles p) p (by omega) ⟨hu, hAe, hB, hHe⟩ hjust
        (by rw [hlk]; rfl) with ⟨s2, tr2, heq2, hinv2, _⟩
    rw [egit_decref_wrapped] at heq
    rw [heq] at heq2
    simp only [Option.some.injEq, Prod.mk.injEq] at heq2
    obtain ⟨h1, h2⟩ := heq2
    subst h1
    exact hinv2

/-- Claim C3: in every state reachable by Wrap and Release operations, a live
child wrapper (REFERENCE via `git_reference_owner`, object kinds via
`git_object_owner`) pins its owning repository's wrapper: the owner is live
with at least one of its references accounted for by a live child (and one
per outstanding host handle), so its refcount is at least 1.  Consequently,
releasing a handle from a reachable state never emits a libgit2 free for the
owner of any wrapper that is still live afterwards: even if the host has
released every repository handle, the repository is not freed until its last
live child is released. -/
theorem egit_owner_liveness (vcl : Vcl) (st : HostState) (hr : Reachable vcl st) :
    (∀ w ∈ st.store, ∀ q, childOwner vcl w = some q →
      ∃ u ∈ st.store, u.ptr = q ∧ 1 ≤ childPins vcl st.store q ∧
        (countH st.handles q : Int) + (childPins vcl st.store q : Int) ≤ u.refcount ∧
        1 ≤ u.refcount) ∧
    (∀ p s' tr, 1 ≤ countH st.handles p →
      egit_decref_wrapped vcl st.store p = some (s', tr) →
      ∀ w' ∈ s', ∀ q, childOwner vcl w' = some q →
        ∀ e ∈ tr, isFreeOf e q = false) := by
  obtain ⟨hu, hA, hB, hH⟩ := reachable_inv vcl st hr
  constructor
  · intro w hw q hq
    rcases hB w hw q hq with ⟨u, hu', hup⟩
    have hpins := childPins_pos vcl hw hq
    have hbound := hA u hu'
    rw [hup] at hbound
    refine ⟨u, hu', hup, hpins, hbound, by omega⟩
  · intro p s' tr hp heq w' hw' q hq e he
    have hsucc : Reachable vcl ⟨s', eraseH st.handles p⟩ :=
      Reachable.release st p s' tr hr hp heq
    obtain ⟨hu2, hA2, hB2, hH2⟩ := reachable_inv vcl _ hsucc
    rcases hB2 w' hw' q hq with ⟨u, hu', hup⟩
    have husome : (lookupPtr s' q).isSome := lookupPtr_isSome_of_mem hu' hup
    rw [egit_decref_wrapped] at heq
    rcases decrefAux_free_removed vcl (st.store.length + 1) st.store p s' tr
        hu heq with ⟨_, hfree⟩
    cases hb : isFreeOf e q with
    | false => rfl
    | true =>
      have hnone := hfree e he q hb
      rw [hnone] at husome
      cases husome

/-- Witness for C3: after wrapping reference 10 twice (owner repository 20),
the repository's wrapper is live and pinned; releasing one handle of the
reference leaves it live and frees nothing belonging to its owner. -/
theorem egit_owner_liveness_witness :
    (∃ u ∈ ([⟨.EGIT_REFERENCE, 2, 10⟩, ⟨.EGIT_REPOSITORY, 2, 20⟩] : Store),
      u.ptr = 20 ∧
      1 ≤ childPins vclSample
        [⟨.EGIT_REFERENCE, 2, 10⟩, ⟨.EGIT_REPOSITORY, 2, 20⟩] 20 ∧
      (countH [10, 10] 20 : Int)
          + (childPins vclSample
              [⟨.EGIT_REFERENCE, 2, 10⟩, ⟨.EGIT_REPOSITORY, 2, 20⟩] 20 : Int)
        ≤ u.refcount ∧
      1 ≤ u.refcount) ∧
    (∀ e ∈ [Event.decref 10], isFreeOf e 20 = false) := by
  have hreach : Reachable vclSample
      ⟨[⟨.EGIT_REFERENCE, 2, 10⟩, ⟨.EGIT_REPOSITORY, 2, 20⟩], [10, 10]⟩ :=
    Reachable.wrap ⟨[⟨.EGIT_REFERENCE, 1, 10⟩, ⟨.EGIT_REPOSITORY, 1, 20⟩], [10]⟩
      .EGIT_REFERENCE 10
      (Reachable.wrap ⟨[], []⟩ .EGIT_REFERENCE 10 Reachable.init)
  have h := egit_owner_liveness vclSample _ hreach
  refine ⟨h.1 ⟨.EGIT_REFERENCE, 2, 10⟩ (by simp) 20 rfl, ?_⟩
  intro e he
  exact h.2 10 [⟨.EGIT_REFERENCE, 1, 10⟩, ⟨.EGIT_REPOSITORY, 2, 20⟩]
    [Event.decref 10] (by decide) rfl ⟨.EGIT_REFERENCE, 1, 10⟩ (by simp) 20 rfl e he
